import Mathlib

/-!
Shallow embedding of src/src/dnsmasq/blockdata.c: a fixed-size-block pool
(blocks with a KEYBLOCK_LEN-byte key buffer linked through a next field)
together with the chain operations built on it.  KEYBLOCK_LEN is a positive
compile-time constant in the C source (defined in dnsmasq.h, outside this
repository); it appears here as an explicit parameter K, and every theorem
assumes 0 < K.  Bytes are modelled as Nat; memcpy is content-agnostic, so
nothing depends on an upper bound.  A block is its key buffer, a list of K
bytes; the next field of the C struct is the list structure of a chain or of
the free list.  The unsigned counters of the C file are modelled as Nat
without 2^32 wraparound (no claim drives them near the word size).

The pool state carries, besides the free list and the three counters of the
C file, a list of pending whine_malloc outcomes (one entry is consumed per
add_blocks call; none models a failed malloc, some f a fresh uninitialised
array whose block i has stale byte j equal to f i j), and a ghost field hist
recording every value blockdata_count has ever taken, newest first, so that
the high-water-mark claim can be stated.  The descriptor of read_write is a
list of available bytes; a read of blen bytes succeeds exactly when blen
bytes are available, a short read fails the call as in the C contract.

Loops of the C file whose iteration count is driven by a byte count rather
than by the length of a traversed list take an explicit iteration budget as
their first Nat argument (the corresponding C loop does not terminate when
KEYBLOCK_LEN is 0); the wrappers pass a budget that is provably sufficient
whenever 0 < K, so the budget-exhausted branch is unreachable in every
theorem below.
-/

abbrev Byte := Nat

abbrev Block := List Byte

structure Pool where
  keyblock_free : List Block
  blockdata_count : Nat
  blockdata_hwm : Nat
  blockdata_alloced : Nat
  mallocs : List (Option (Nat → Nat → Byte))
  hist : List Nat

/-- Key buffer of one freshly malloc'ed block: K uninitialised (arbitrary)
bytes, given by a stale-content function. -/
def mkBlock (K : Nat) (f : Nat → Byte) : Block :=
  (List.range K).map f

/-- add_blocks(n): one whine_malloc of an n-block array; on success the new
blocks are pushed in order onto the free list and blockdata_alloced grows by
n, on failure the pool is unchanged (one malloc outcome is consumed either
way). -/
def add_blocks (K n : Nat) (p : Pool) : Pool :=
  match p.mallocs with
  | [] => p
  | none :: rest => { p with mallocs := rest }
  | some f :: rest =>
      { p with
        keyblock_free := (List.range n).map (fun i => mkBlock K (f i)) ++ p.keyblock_free,
        blockdata_alloced := p.blockdata_alloced + n,
        mallocs := rest }

/-- new_block(): grow by 50 when the free list is empty, then pop the free
list head, count it in use, update the high-water mark, and null its next
field (the popped block leaves the list structure). -/
def new_block (K : Nat) (p : Pool) : Option Block × Pool :=
  let p1 := if p.keyblock_free.isEmpty then add_blocks K 50 p else p
  match p1.keyblock_free with
  | [] => (none, p1)
  | b :: rest =>
      (some b,
        { p1 with
          keyblock_free := rest,
          blockdata_count := p1.blockdata_count + 1,
          blockdata_hwm := max p1.blockdata_hwm (p1.blockdata_count + 1),
          hist := (p1.blockdata_count + 1) :: p1.hist })

/-- Ghost-instrumented repeated decrement of blockdata_count: one decrement
per block of a released chain, each intermediate value recorded in hist. -/
def decMany : Nat → Nat → List Nat → Nat × List Nat
  | 0, c, h => (c, h)
  | n + 1, c, h => decMany n (c - 1) ((c - 1) :: h)

/-- blockdata_free: no-op on a null chain, otherwise decrement the in-use
count once per block and splice the whole chain onto the free-list head. -/
def blockdata_free (blocks : List Block) (p : Pool) : Pool :=
  match blocks with
  | [] => p
  | _ :: _ =>
      let r := decMany blocks.length p.blockdata_count p.hist
      { p with
        keyblock_free := blocks ++ p.keyblock_free,
        blockdata_count := r.1,
        hist := r.2 }

/-- Body of blockdata_alloc_real's do-while loop.  Each iteration acquires a
block, fills it with min(len, K) bytes from the buffer (data = some d) or
the descriptor (data = none), appends it to the chain built so far, and
continues until the remaining length is 0.  On an acquire failure the
partial chain acc is released; on a short descriptor read the partial chain
acc is released but, exactly as in the C source, the block just acquired is
not (it has not been linked into acc yet).  Returns the chain (or none),
the pool, and the rest of the descriptor stream. -/
def allocGo (K : Nat) : Nat → List Byte → Option (List Byte) → Nat → List Block → Pool →
    Option (List Block) × Pool × List Byte
  | 0, fd, _, _, _, p => (none, p, fd)
  | fuel + 1, fd, data, len, acc, p =>
      match new_block K p with
      | (none, p1) => (none, blockdata_free acc p1, fd)
      | (some block, p1) =>
          let blen := min len K
          match data with
          | some d =>
              let acc' := acc ++ [d.take blen ++ block.drop blen]
              if len - blen = 0 then (some acc', p1, fd)
              else allocGo K fuel fd (some (d.drop blen)) (len - blen) acc' p1
          | none =>
              if 0 < blen ∧ fd.length < blen then (none, blockdata_free acc p1, fd)
              else
                let acc' := acc ++ [fd.take blen ++ block.drop blen]
                if len - blen = 0 then (some acc', p1, fd.drop blen)
                else allocGo K fuel (fd.drop blen) none (len - blen) acc' p1

/-- blockdata_alloc_real(fd, data, len).  The budget len + 1 covers the
ceil(len/K) loop iterations (one iteration when len = 0) whenever 0 < K. -/
def blockdata_alloc_real (K : Nat) (fd : List Byte) (data : Option (List Byte)) (len : Nat)
    (p : Pool) : Option (List Block) × Pool × List Byte :=
  allocGo K (len + 1) fd data len [] p

/-- blockdata_alloc(data, len): the in-memory source (fd 0 is modelled as an
empty stream, it is only read when data is null and len is nonzero). -/
def blockdata_alloc (K : Nat) (data : Option (List Byte)) (len : Nat) (p : Pool) :
    Option (List Block) × Pool × List Byte :=
  blockdata_alloc_real K [] data len p

/-- blockdata_read(fd, len): the stream-descriptor source. -/
def blockdata_read (K : Nat) (fd : List Byte) (len : Nat) (p : Pool) :
    Option (List Block) × Pool × List Byte :=
  blockdata_alloc_real K fd none len p

/-- Result of blockdata_expand.  ub marks the two undefined-behaviour points
of the C source (memcpy through, or assignment to the next field of, a null
block pointer); fail is the return 0 path, ok c' the return 1 path with c'
the chain as left in place. -/
inductive ExpandRes where
  | ub
  | fail
  | ok (chain : List Block)
deriving DecidableEq

/-- Iterations of blockdata_expand's while(1) loop after the first: the
block bcur was just acquired (offset 0), the live chain from the head is
headPart ++ [bcur].  Each iteration fills min(newlen, K) bytes, breaks when
nothing remains, otherwise acquires the next block, releasing the whole
chain from the head on an acquire failure. -/
def expandLoop (K : Nat) : Nat → List Byte → Nat → List Block → Block → Pool →
    ExpandRes × Pool
  | 0, _, _, _, _, p => (.ub, p)
  | fuel + 1, ys, newlen, headPart, bcur, p =>
      let size := min newlen K
      let b' := ys.take size ++ bcur.drop size
      if newlen - size = 0 then (.ok (headPart ++ [b']), p)
      else
        match new_block K p with
        | (none, p1) => (.fail, blockdata_free (headPart ++ [b']) p1)
        | (some nb, p1) => expandLoop K fuel (ys.drop size) (newlen - size) (headPart ++ [b']) nb p1

/-- Walk of blockdata_expand's for loop: advance while oldlen > K and the
current block pointer is non-null, subtracting K per step.  Returns the
number of advances (the index of the block pointer after the loop) and the
remaining oldlen. -/
def walk (K : Nat) : List Block → Nat → Nat × Nat
  | [], oldlen => (0, oldlen)
  | _ :: rest, oldlen =>
      if K < oldlen then
        let r := walk K rest (oldlen - K)
        (r.1 + 1, r.2)
      else (0, oldlen)

/-- blockdata_expand(block, oldlen, data, newlen).  After the walk, the
guard oldlen > K releases the chain and fails; otherwise the block pointer
may still be null (a chain short by exactly one block slips past the guard),
in which case a nonzero copy or a successful acquire dereferences null (ub).
With a real final block the first loop iteration fills its remaining
capacity in place and the remaining bytes go into freshly acquired blocks;
the first successful acquire overwrites the final block's next field. -/
def blockdata_expand (K : Nat) (chain : List Block) (oldlen : Nat) (ys : List Byte)
    (newlen : Nat) (p : Pool) : ExpandRes × Pool :=
  let w := walk K chain oldlen
  let m := w.1
  let ol := w.2
  if K < ol then (.fail, blockdata_free chain p)
  else
    match (chain.drop m).head? with
    | none =>
        if 0 < min newlen (K - ol) then (.ub, p)
        else if newlen = 0 then (.ok chain, p)
        else
          match new_block K p with
          | (some _, p1) => (.ub, p1)
          | (none, p1) => (.fail, blockdata_free chain p1)
    | some bm =>
        let size1 := min newlen (K - ol)
        let bm' := bm.take ol ++ ys.take size1 ++ bm.drop (ol + size1)
        if newlen - size1 = 0 then (.ok (chain.take m ++ bm' :: chain.drop (m + 1)), p)
        else
          match new_block K p with
          | (none, p1) => (.fail, blockdata_free (chain.take m ++ bm' :: chain.drop (m + 1)) p1)
          | (some nb, p1) =>
              expandLoop K (newlen - size1) (ys.drop size1) (newlen - size1)
                (chain.take m ++ [bm']) nb p1

/-- Copy loop of blockdata_retrieve and the bytes it writes: min(len, K)
bytes from each block while bytes remain and blocks remain (the loop stops
early on a short chain, leaving the rest of the destination untouched). -/
def retrieveLoop (K : Nat) : List Block → Nat → List Byte
  | [], _ => []
  | b :: rest, len =>
      if 0 < len then b.take (min len K) ++ retrieveLoop K rest (len - min len K)
      else []

/-- State of blockdata_retrieve's static scratch buffer: the recorded
capacity buff_len and the buffer itself (none models the null pointer). -/
structure Scratch where
  buff_len : Nat
  buff : Option (List Byte)
deriving DecidableEq

/-- Result of blockdata_retrieve: the returned pointer is null, or a buffer
with the given contents; ub marks a copy through a null destination. -/
inductive RetRes where
  | ub
  | null
  | buf (bytes : List Byte)
deriving DecidableEq

/-- blockdata_retrieve(block, len, data).  With a caller buffer the copy
loop writes into it and the buffer is returned.  With data null, a len
exceeding the recorded scratch capacity triggers whine_malloc(len) (the
malloc argument is its outcome: none a failed malloc returning null, some f
a fresh buffer of len stale bytes f); the old buffer is freed and replaced,
but buff_len is not updated, exactly as in the C source.  The copy then
writes into the scratch buffer, which is returned. -/
def blockdata_retrieve (K : Nat) (chain : List Block) (len : Nat) (data : Option (List Byte))
    (sc : Scratch) (malloc : Option (Nat → Byte)) : RetRes × Scratch :=
  match data with
  | some d =>
      let w := retrieveLoop K chain len
      (.buf (w ++ d.drop w.length), sc)
  | none =>
      if sc.buff_len < len then
        match malloc with
        | none => (.null, sc)
        | some f =>
            let w := retrieveLoop K chain len
            let out := w ++ ((List.range len).map f).drop w.length
            (.buf out, { sc with buff := some out })
      else
        match sc.buff with
        | none =>
            if 0 < len ∧ chain ≠ [] then (.ub, sc)
            else (.null, sc)
        | some old =>
            let w := retrieveLoop K chain len
            let out := w ++ old.drop w.length
            (.buf out, { sc with buff := some out })

/-- Byte size of struct blockdata.  Modelled from the spec: dnsmasq.h, which
defines struct blockdata (one link field plus the KEYBLOCK_LEN-byte key
buffer) and KEYBLOCK_LEN itself, is not part of this repository; per the
spec a block is a fixed-capacity byte buffer of size B plus one link field,
so the record size is the link-field size plus K. -/
def sizeof_blockdata (linkSize K : Nat) : Nat :=
  linkSize + K

/-- blockdata_report(): the three byte counts passed to my_syslog, each a
counter multiplied by sizeof(struct blockdata).  The function reads the pool
and returns the counts; it has no pool output because it mutates nothing. -/
def blockdata_report (linkSize K : Nat) (p : Pool) : Nat × Nat × Nat :=
  (p.blockdata_count * sizeof_blockdata linkSize K,
   p.blockdata_hwm * sizeof_blockdata linkSize K,
   p.blockdata_alloced * sizeof_blockdata linkSize K)

/-- blockdata_init(): reset the pool and, when DNSSEC validation is on,
preallocate cachesize blocks (the hist ghost restarts at the single value
0). -/
def blockdata_init (K : Nat) (dnssec : Bool) (cachesize : Nat)
    (mallocs : List (Option (Nat → Nat → Byte))) : Pool :=
  let p0 : Pool := ⟨[], 0, 0, 0, mallocs, [0]⟩
  if dnssec then add_blocks K cachesize p0 else p0

/-- Number of blocks of a chain of logical length L: one block for an empty
blob, otherwise ceil(L / K). -/
def blocksFor (K L : Nat) : Nat :=
  if L = 0 then 1 else (L + K - 1) / K

/-- Maximum over the recorded history of blockdata_count values. -/
def histMax (h : List Nat) : Nat :=
  h.foldr max 0

/-- Free-list well-formedness: every free block has the key capacity K. -/
def FreeWF (K : Nat) (p : Pool) : Prop :=
  ∀ b ∈ p.keyblock_free, b.length = K

/-- Pool accounting well-formedness: in-use plus free equals ever-allocated,
the newest history entry is the current count, the high-water mark is the
history maximum, and free blocks have capacity K. -/
def PoolWF (K : Nat) (p : Pool) : Prop :=
  p.blockdata_count + p.keyblock_free.length = p.blockdata_alloced ∧
  p.hist.head? = some p.blockdata_count ∧
  p.blockdata_hwm = histMax p.hist ∧
  FreeWF K p

/-- Chain well-formedness for logical length L: the block count matches L
and every block has capacity K. -/
def ChainWF (K : Nat) (c : List Block) (L : Nat) : Prop :=
  c.length = blocksFor K L ∧ ∀ b ∈ c, b.length = K

/-- One caller-level operation on the pool: build a chain from an in-memory
buffer, append bytes to a live chain, or free a live chain.  Callers track
each chain's logical length (the spec's calling convention), so expand
receives the tracked length of the addressed chain. -/
inductive Op where
  | alloc (data : List Byte)
  | expand (i : Nat) (data : List Byte)
  | free (i : Nat)

/-- Global state of a run: the pool plus the live chains with their tracked
logical lengths. -/
structure St where
  pool : Pool
  live : List (List Block × Nat)

/-- Total number of blocks across the live chains. -/
def sumBlocks (live : List (List Block × Nat)) : Nat :=
  (live.map (fun cl => cl.1.length)).sum

/-- Effect of one operation.  A failed alloc adds no chain; a failed (or
crashed) expand destroys the addressed chain, a successful one updates it in
place; free releases the addressed chain.  Operations addressing no live
chain do nothing. -/
def step (K : Nat) (s : St) : Op → St
  | .alloc d =>
      let r := blockdata_alloc K (some d) d.length s.pool
      match r.1 with
      | some bs => { pool := r.2.1, live := s.live ++ [(bs, d.length)] }
      | none => { pool := r.2.1, live := s.live }
  | .expand i d =>
      match s.live[i]? with
      | none => s
      | some cl =>
          let r := blockdata_expand K cl.1 cl.2 d d.length s.pool
          match r.1 with
          | .ok c' => { pool := r.2, live := s.live.set i (c', cl.2 + d.length) }
          | .fail => { pool := r.2, live := s.live.eraseIdx i }
          | .ub => { pool := r.2, live := s.live.eraseIdx i }
  | .free i =>
      match s.live[i]? with
      | none => s
      | some cl => { pool := blockdata_free cl.1 s.pool, live := s.live.eraseIdx i }

/-- Run a sequence of operations. -/
def run (K : Nat) (s : St) (ops : List Op) : St :=
  ops.foldl (step K) s

/-- Accounting invariant carried through every run. -/
def StInv (K : Nat) (s : St) : Prop :=
  PoolWF K s.pool ∧
  s.pool.blockdata_count = sumBlocks s.live ∧
  ∀ cl ∈ s.live, ChainWF K cl.1 cl.2

/-! Equations for the pool primitives, resolving their case analyses. -/

theorem add_blocks_eq_nil {K n : Nat} {p : Pool} (h : p.mallocs = []) : add_blocks K n p = p := by
  unfold add_blocks; rw [h]

theorem add_blocks_eq_none {K n : Nat} {p : Pool} {rest} (h : p.mallocs = none :: rest) :
    add_blocks K n p = { p with mallocs := rest } := by
  unfold add_blocks; rw [h]

theorem add_blocks_eq_some {K n : Nat} {p : Pool} {f rest} (h : p.mallocs = some f :: rest) :
    add_blocks K n p =
      { p with
        keyblock_free := (List.range n).map (fun i => mkBlock K (f i)) ++ p.keyblock_free,
        blockdata_alloced := p.blockdata_alloced + n,
        mallocs := rest } := by
  unfold add_blocks; rw [h]

theorem new_block_eq_pop {K : Nat} {p : Pool} {b rest} (h : p.keyblock_free = b :: rest) :
    new_block K p = (some b,
      { p with keyblock_free := rest,
               blockdata_count := p.blockdata_count + 1,
               blockdata_hwm := max p.blockdata_hwm (p.blockdata_count + 1),
               hist := (p.blockdata_count + 1) :: p.hist }) := by
  unfold new_block
  simp only [h, List.isEmpty_cons, Bool.false_eq_true, if_false]

theorem new_block_eq_grow_nil {K : Nat} {p : Pool} (h : p.keyblock_free = [])
    (h2 : (add_blocks K 50 p).keyblock_free = []) :
    new_block K p = (none, add_blocks K 50 p) := by
  unfold new_block
  simp only [h, List.isEmpty_nil, if_true, h2]

theorem new_block_eq_grow_pop {K : Nat} {p : Pool} {b rest} (h : p.keyblock_free = [])
    (h2 : (add_blocks K 50 p).keyblock_free = b :: rest) :
    new_block K p = (some b,
      { add_blocks K 50 p with
          keyblock_free := rest,
          blockdata_count := (add_blocks K 50 p).blockdata_count + 1,
          blockdata_hwm :=
            max (add_blocks K 50 p).blockdata_hwm ((add_blocks K 50 p).blockdata_count + 1),
          hist := ((add_blocks K 50 p).blockdata_count + 1) :: (add_blocks K 50 p).hist }) := by
  unfold new_block
  simp only [h, List.isEmpty_nil, if_true, h2]

/-! Basic facts about the pool primitives. -/

theorem mkBlock_length (K : Nat) (f : Nat → Byte) : (mkBlock K f).length = K := by
  simp [mkBlock]

theorem histMax_cons (a : Nat) (h : List Nat) : histMax (a :: h) = max a (histMax h) := rfl

theorem le_histMax_of_head {h : List Nat} {c : Nat} (hh : h.head? = some c) : c ≤ histMax h := by
  cases h with
  | nil => simp at hh
  | cons a t =>
      simp only [List.head?_cons, Option.some.injEq] at hh
      subst hh
      exact le_max_left _ _

theorem decMany_fst : ∀ (n c : Nat) (h : List Nat), (decMany n c h).1 = c - n := by
  intro n
  induction n with
  | zero => intro c h; simp [decMany]
  | succ n ih =>
      intro c h
      show (decMany n (c - 1) ((c - 1) :: h)).1 = c - (n + 1)
      rw [ih]
      omega

theorem decMany_snd_head : ∀ (n c : Nat) (h : List Nat), 0 < n →
    ((decMany n c h).2).head? = some (c - n) := by
  intro n
  induction n with
  | zero => intro c h hn; omega
  | succ n ih =>
      intro c h _
      show ((decMany n (c - 1) ((c - 1) :: h)).2).head? = some (c - (n + 1))
      cases n with
      | zero => simp [decMany]
      | succ k =>
          rw [ih (c - 1) ((c - 1) :: h) (Nat.succ_pos k)]
          congr 1
          omega

theorem decMany_histMax : ∀ (n c : Nat) (h : List Nat), c ≤ histMax h →
    histMax (decMany n c h).2 = histMax h := by
  intro n
  induction n with
  | zero => intro c h _; simp [decMany]
  | succ n ih =>
      intro c h hc
      show histMax (decMany n (c - 1) ((c - 1) :: h)).2 = histMax h
      have h1 : histMax ((c - 1) :: h) = histMax h := by
        rw [histMax_cons]
        exact max_eq_right (le_trans (Nat.sub_le c 1) hc)
      rw [ih (c - 1) ((c - 1) :: h) (by rw [histMax_cons]; exact le_max_left _ _), h1]

theorem blockdata_free_count {c : List Block} {p : Pool} (hle : c.length ≤ p.blockdata_count) :
    (blockdata_free c p).blockdata_count + c.length = p.blockdata_count := by
  cases c with
  | nil => simp [blockdata_free]
  | cons b t =>
      show (decMany (b :: t).length p.blockdata_count p.hist).1 + (b :: t).length =
        p.blockdata_count
      rw [decMany_fst]
      omega

theorem blockdata_free_keyblock_free (c : List Block) (p : Pool) :
    (blockdata_free c p).keyblock_free = c ++ p.keyblock_free := by
  cases c <;> rfl

theorem blockdata_free_alloced (c : List Block) (p : Pool) :
    (blockdata_free c p).blockdata_alloced = p.blockdata_alloced := by
  cases c <;> rfl

theorem blockdata_free_hwm (c : List Block) (p : Pool) :
    (blockdata_free c p).blockdata_hwm = p.blockdata_hwm := by
  cases c <;> rfl

theorem blockdata_free_mallocs (c : List Block) (p : Pool) :
    (blockdata_free c p).mallocs = p.mallocs := by
  cases c <;> rfl

theorem blockdata_free_freeWF {K : Nat} {c : List Block} {p : Pool} (hF : FreeWF K p)
    (hc : ∀ b ∈ c, b.length = K) : FreeWF K (blockdata_free c p) := by
  intro x hx
  rw [blockdata_free_keyblock_free] at hx
  rcases List.mem_append.1 hx with h | h
  · exact hc x h
  · exact hF x h

theorem blockdata_free_poolWF {K : Nat} {c : List Block} {p : Pool} (hWF : PoolWF K p)
    (hc : ∀ b ∈ c, b.length = K) (hle : c.length ≤ p.blockdata_count) :
    PoolWF K (blockdata_free c p) := by
  obtain ⟨hsum, hhead, hhwm, hfree⟩ := hWF
  cases c with
  | nil => exact ⟨hsum, hhead, hhwm, hfree⟩
  | cons b t =>
      refine ⟨?_, ?_, ?_, blockdata_free_freeWF hfree hc⟩
      · show (decMany (b :: t).length p.blockdata_count p.hist).1 +
          ((b :: t) ++ p.keyblock_free).length = p.blockdata_alloced
        rw [decMany_fst, List.length_append]
        simp only [List.length_cons] at hle ⊢
        omega
      · show ((decMany (b :: t).length p.blockdata_count p.hist).2).head? =
          some (decMany (b :: t).length p.blockdata_count p.hist).1
        rw [decMany_fst, decMany_snd_head _ _ _ (by simp)]
      · show p.blockdata_hwm = histMax (decMany (b :: t).length p.blockdata_count p.hist).2
        rw [decMany_histMax _ _ _ (le_histMax_of_head hhead), hhwm]

theorem add_blocks_count (K n : Nat) (p : Pool) :
    (add_blocks K n p).blockdata_count = p.blockdata_count := by
  rcases hp : p.mallocs with _ | ⟨_ | f, rest⟩
  · rw [add_blocks_eq_nil hp]
  · rw [add_blocks_eq_none hp]
  · rw [add_blocks_eq_some hp]

theorem add_blocks_freeWF {K : Nat} (n : Nat) {p : Pool} (hF : FreeWF K p) :
    FreeWF K (add_blocks K n p) := by
  rcases hp : p.mallocs with _ | ⟨_ | f, rest⟩
  · rw [add_blocks_eq_nil hp]; exact hF
  · rw [add_blocks_eq_none hp]; exact hF
  · rw [add_blocks_eq_some hp]
    intro b hb
    rcases List.mem_append.1 hb with h | h
    · obtain ⟨i, _, rfl⟩ := List.mem_map.1 h
      exact mkBlock_length K _
    · exact hF b h

theorem add_blocks_poolWF {K : Nat} (n : Nat) {p : Pool} (hWF : PoolWF K p) :
    PoolWF K (add_blocks K n p) := by
  obtain ⟨hsum, hhead, hhwm, hfree⟩ := hWF
  refine ⟨?_, ?_, ?_, add_blocks_freeWF n hfree⟩
  · rcases hp : p.mallocs with _ | ⟨_ | f, rest⟩
    · rw [add_blocks_eq_nil hp]; exact hsum
    · rw [add_blocks_eq_none hp]; exact hsum
    · rw [add_blocks_eq_some hp]
      simp only [List.length_append, List.length_map, List.length_range]
      omega
  · rcases hp : p.mallocs with _ | ⟨_ | f, rest⟩
    · rw [add_blocks_eq_nil hp]; exact hhead
    · rw [add_blocks_eq_none hp]; exact hhead
    · rw [add_blocks_eq_some hp]; exact hhead
  · rcases hp : p.mallocs with _ | ⟨_ | f, rest⟩
    · rw [add_blocks_eq_nil hp]; exact hhwm
    · rw [add_blocks_eq_none hp]; exact hhwm
    · rw [add_blocks_eq_some hp]; exact hhwm

theorem new_block_spec {K : Nat} {p : Pool} (hWF : PoolWF K p) :
    PoolWF K (new_block K p).2 ∧
    (((new_block K p).1 = none ∧ (new_block K p).2.blockdata_count = p.blockdata_count) ∨
      (∃ b, (new_block K p).1 = some b ∧ b.length = K ∧
        (new_block K p).2.blockdata_count = p.blockdata_count + 1)) := by
  obtain ⟨hsum, hhead, hhwm, hfree⟩ := hWF
  cases hf : p.keyblock_free with
  | cons b rest =>
      rw [new_block_eq_pop hf]
      rw [hf, List.length_cons] at hsum
      refine ⟨⟨by simp only []; omega, rfl, ?_, ?_⟩, Or.inr ⟨b, rfl, ?_, rfl⟩⟩
      · show max p.blockdata_hwm (p.blockdata_count + 1) =
          histMax ((p.blockdata_count + 1) :: p.hist)
        rw [histMax_cons, hhwm, Nat.max_comm]
      · intro x hx
        exact hfree x (by rw [hf]; exact List.mem_cons_of_mem _ hx)
      · exact hfree b (by rw [hf]; exact List.mem_cons_self _ _)
  | nil =>
      have hq : PoolWF K (add_blocks K 50 p) := add_blocks_poolWF 50 ⟨hsum, hhead, hhwm, hfree⟩
      obtain ⟨hsum2, hhead2, hhwm2, hfree2⟩ := hq
      cases h2 : (add_blocks K 50 p).keyblock_free with
      | nil =>
          rw [new_block_eq_grow_nil hf h2]
          exact ⟨⟨hsum2, hhead2, hhwm2, hfree2⟩, Or.inl ⟨rfl, add_blocks_count K 50 p⟩⟩
      | cons b rest =>
          rw [new_block_eq_grow_pop hf h2]
          rw [h2, List.length_cons] at hsum2
          refine ⟨⟨by simp only []; omega, rfl, ?_, ?_⟩,
            Or.inr ⟨b, rfl, ?_, by simp only [add_blocks_count]⟩⟩
          · show max (add_blocks K 50 p).blockdata_hwm ((add_blocks K 50 p).blockdata_count + 1) =
              histMax (((add_blocks K 50 p).blockdata_count + 1) :: (add_blocks K 50 p).hist)
            rw [histMax_cons, hhwm2, Nat.max_comm]
          · intro x hx
            exact hfree2 x (by rw [h2]; exact List.mem_cons_of_mem _ hx)
          · exact hfree2 b (by rw [h2]; exact List.mem_cons_self _ _)

theorem new_block_freeWF {K : Nat} {p : Pool} (hF : FreeWF K p) :
    FreeWF K (new_block K p).2 ∧ ∀ b, (new_block K p).1 = some b → b.length = K := by
  cases hf : p.keyblock_free with
  | cons b rest =>
      rw [new_block_eq_pop hf]
      refine ⟨?_, ?_⟩
      · intro x hx
        exact hF x (by rw [hf]; exact List.mem_cons_of_mem _ hx)
      · intro x hx
        simp only [Option.some.injEq] at hx
        subst hx
        exact hF b (by rw [hf]; exact List.mem_cons_self _ _)
  | nil =>
      have hF2 : FreeWF K (add_blocks K 50 p) := add_blocks_freeWF 50 hF
      cases h2 : (add_blocks K 50 p).keyblock_free with
      | nil =>
          rw [new_block_eq_grow_nil hf h2]
          exact ⟨hF2, fun b hb => by simp at hb⟩
      | cons b rest =>
          rw [new_block_eq_grow_pop hf h2]
          refine ⟨?_, ?_⟩
          · intro x hx
            exact hF2 x (by rw [h2]; exact List.mem_cons_of_mem _ hx)
          · intro x hx
            simp only [Option.some.injEq] at hx
            subst hx
            exact hF2 b (by rw [h2]; exact List.mem_cons_self _ _)

/-! Arithmetic of the block count of a chain. -/

theorem blocksFor_pos {K : Nat} (hK : 0 < K) (L : Nat) : 0 < blocksFor K L := by
  unfold blocksFor
  split
  · exact Nat.one_pos
  · rename_i h
    exact Nat.lt_of_lt_of_le Nat.zero_lt_one ((Nat.one_le_div_iff hK).2 (by omega))

theorem blocksFor_eq_one {K L : Nat} (hK : 0 < K) (hL : L ≤ K) : blocksFor K L = 1 := by
  unfold blocksFor
  split
  · rfl
  · rename_i h
    exact Nat.div_eq_of_lt_le (by omega) (by omega)

theorem blocksFor_succ {K L : Nat} (hK : 0 < K) (h : K < L) :
    blocksFor K L = blocksFor K (L - K) + 1 := by
  unfold blocksFor
  rw [if_neg (by omega), if_neg (by omega)]
  rw [show L + K - 1 = (L - K + K - 1) + K by omega, Nat.add_div_right _ hK]

theorem blocksFor_add_mul {K r : Nat} (hK : 0 < K) (hr : 0 < r) :
    ∀ j, blocksFor K (j * K + r) = j + blocksFor K r := by
  intro j
  induction j with
  | zero => simp
  | succ j ih =>
      rw [Nat.succ_mul, show j * K + K + r = (j * K + r) + K by omega,
        blocksFor_succ hK (by omega), Nat.add_sub_cancel, ih]
      omega

theorem blocksFor_bounds {K : Nat} (hK : 0 < K) :
    ∀ L, L ≤ blocksFor K L * K ∧ (0 < L → (blocksFor K L - 1) * K < L) := by
  intro L
  induction L using Nat.strong_induction_on with
  | _ L ih =>
      rcases Nat.le_total L K with hle | hlt
      · rw [blocksFor_eq_one hK hle]
        constructor
        · omega
        · intro h; simpa using h
      · rcases Nat.eq_or_lt_of_le hlt with heq | hlt
        · rw [← heq, blocksFor_eq_one hK (le_refl K)]
          constructor
          · omega
          · intro h; simpa using hK
        · rw [blocksFor_succ hK hlt]
          obtain ⟨ih1, ih2⟩ := ih (L - K) (by omega)
          have hbp : 0 < blocksFor K (L - K) := blocksFor_pos hK _
          have e1 : (blocksFor K (L - K) + 1) * K = blocksFor K (L - K) * K + K :=
            Nat.succ_mul _ _
          have e2 : blocksFor K (L - K) * K = (blocksFor K (L - K) - 1) * K + K := by
            conv_lhs => rw [show blocksFor K (L - K) = (blocksFor K (L - K) - 1) + 1 by omega]
            exact Nat.succ_mul _ _
          have h2 := ih2 (by omega)
          constructor
          · omega
          · intro _
            simp only [Nat.add_sub_cancel]
            omega

/-! Contents of a well-formed chain. -/

theorem flatten_length_of_blocks {K : Nat} :
    ∀ (l : List Block), (∀ b ∈ l, b.length = K) → l.flatten.length = l.length * K := by
  intro l
  induction l with
  | nil => simp
  | cons b t ih =>
      intro h
      simp only [List.flatten_cons, List.length_append, List.length_cons]
      rw [ih (fun x hx => h x (List.mem_cons_of_mem _ hx)), h b (List.mem_cons_self _ _),
        Nat.succ_mul]
      omega

theorem retrieveLoop_eq_flatten {K : Nat} :
    ∀ (c : List Block), (∀ b ∈ c, b.length = K) → ∀ len,
      retrieveLoop K c len = c.flatten.take len := by
  intro c
  induction c with
  | nil => intro _ len; simp [retrieveLoop]
  | cons b t ih =>
      intro h len
      have hb : b.length = K := h b (List.mem_cons_self _ _)
      have ht : ∀ x ∈ t, x.length = K := fun x hx => h x (List.mem_cons_of_mem _ hx)
      show (if 0 < len then b.take (min len K) ++ retrieveLoop K t (len - min len K) else []) = _
      by_cases hlen : 0 < len
      · rw [if_pos hlen, ih ht, List.flatten_cons, List.take_append_eq_append_take]
        congr 1
        · rcases Nat.le_total len K with h1 | h1
          · rw [min_eq_left h1]
          · rw [min_eq_right h1, List.take_of_length_le (by omega),
              List.take_of_length_le (by omega)]
        · rw [hb, show len - min len K = len - K by omega]
      · rw [if_neg hlen]
        have : len = 0 := by omega
        subst this
        simp

theorem walk_consistent {K : Nat} (hK : 0 < K) :
    ∀ (c : List Block) (L : Nat), c.length = blocksFor K L →
      walk K c L = (c.length - 1, L - (c.length - 1) * K) ∧
      (c.length - 1) * K ≤ L ∧ L ≤ c.length * K ∧ (0 < L → (c.length - 1) * K < L) := by
  intro c
  induction c with
  | nil =>
      intro L hlen
      have := blocksFor_pos hK L
      simp at hlen
      omega
  | cons b t ih =>
      intro L hlen
      cases t with
      | nil =>
          have hLK : L ≤ K := by
            by_contra hlt
            push_neg at hlt
            rw [blocksFor_succ hK hlt] at hlen
            have := blocksFor_pos hK (L - K)
            simp at hlen
            omega
          refine ⟨?_, by simp, by simpa using hLK, by intro h; simpa using h⟩
          show (if K < L then _ else ((0 : Nat), L)) = _
          rw [if_neg (by omega)]
          simp
      | cons b2 t2 =>
          have hKL : K < L := by
            by_contra hle
            push_neg at hle
            rw [blocksFor_eq_one hK hle] at hlen
            simp at hlen
          have hlen2 : (b2 :: t2).length = blocksFor K (L - K) := by
            rw [blocksFor_succ hK hKL] at hlen
            simp only [List.length_cons] at hlen ⊢
            omega
          obtain ⟨hw, hlb, hub, hpos⟩ := ih (L - K) hlen2
          simp only [List.length_cons, Nat.add_sub_cancel] at hw hlb hub hpos ⊢
          have P1 : (t2.length + 1) * K = t2.length * K + K := Nat.succ_mul _ _
          have P2 : (t2.length + 1 + 1) * K = (t2.length + 1) * K + K := Nat.succ_mul _ _
          refine ⟨?_, by omega, by omega, fun _ => by omega⟩
          show (if K < L then
              ((walk K (b2 :: t2) (L - K)).1 + 1, (walk K (b2 :: t2) (L - K)).2)
            else ((0 : Nat), L)) = _
          rw [if_pos hKL, hw]
          refine Prod.ext rfl ?_
          show (L - K) - t2.length * K = L - (t2.length + 1) * K
          omega

/-! Step equations for the allocation loop. -/

theorem allocGo_succ_none {K fuel : Nat} {fd : List Byte} {data : Option (List Byte)}
    {len : Nat} {acc : List Block} {p p1 : Pool} (hnb : new_block K p = (none, p1)) :
    allocGo K (fuel + 1) fd data len acc p = (none, blockdata_free acc p1, fd) := by
  simp only [allocGo, hnb]

theorem allocGo_succ_mem {K fuel : Nat} {fd d : List Byte} {len : Nat} {acc : List Block}
    {p p1 : Pool} {block : Block} (hnb : new_block K p = (some block, p1)) :
    allocGo K (fuel + 1) fd (some d) len acc p =
      (if len - min len K = 0 then
        (some (acc ++ [d.take (min len K) ++ block.drop (min len K)]), p1, fd)
      else
        allocGo K fuel fd (some (d.drop (min len K))) (len - min len K)
          (acc ++ [d.take (min len K) ++ block.drop (min len K)]) p1) := by
  simp only [allocGo, hnb]

theorem allocGo_mem_spec {K : Nat} (hK : 0 < K) :
    ∀ (fuel len : Nat) (d fd : List Byte) (acc : List Block) (p : Pool),
      len < fuel → len ≤ d.length → FreeWF K p → (∀ b ∈ acc, b.length = K) →
      FreeWF K (allocGo K fuel fd (some d) len acc p).2.1 ∧
      ∀ bs, (allocGo K fuel fd (some d) len acc p).1 = some bs →
        ∃ nb, bs = acc ++ nb ∧ nb.length = blocksFor K len ∧
          (∀ b ∈ nb, b.length = K) ∧ nb.flatten.take len = d.take len := by
  intro fuel
  induction fuel with
  | zero => intro len d fd acc p hf; omega
  | succ fuel ih =>
      intro len d fd acc p hf hd hF hacc
      rcases hnb : new_block K p with ⟨rb, p1⟩
      have hWF := new_block_freeWF (K := K) (p := p) hF
      rw [hnb] at hWF
      obtain ⟨hF1, hblen⟩ := hWF
      cases rb with
      | none =>
          rw [allocGo_succ_none hnb]
          exact ⟨blockdata_free_freeWF hF1 hacc, fun bs h => by simp at h⟩
      | some block =>
          have hbl : block.length = K := hblen block rfl
          rw [allocGo_succ_mem hnb]
          by_cases hz : len - min len K = 0
          · rw [if_pos hz]
            have hlenK : len ≤ K := by omega
            have hmin : min len K = len := min_eq_left hlenK
            have htl : (d.take len).length = len := by
              rw [List.length_take]
              omega
            refine ⟨hF1, fun bs hbs => ?_⟩
            simp only [Option.some.injEq] at hbs
            subst hbs
            refine ⟨[d.take (min len K) ++ block.drop (min len K)], rfl, ?_, ?_, ?_⟩
            · simp [blocksFor_eq_one hK hlenK]
            · intro b hb
              simp only [List.mem_singleton] at hb
              subst hb
              rw [List.length_append, List.length_take, List.length_drop, hbl]
              omega
            · simp only [List.flatten_cons, List.flatten_nil, List.append_nil, hmin]
              rw [List.take_append_eq_append_take, htl, List.take_of_length_le (le_of_eq htl),
                Nat.sub_self, List.take_zero, List.append_nil]
          · rw [if_neg hz]
            have hKlt : K < len := by omega
            have hmin : min len K = K := min_eq_right (le_of_lt hKlt)
            have hbdrop : block.drop K = [] := by
              rw [← hbl, List.drop_length]
            have htkK : (d.take K).length = K := by
              rw [List.length_take]
              omega
            have hacc' : ∀ b ∈ acc ++ [d.take (min len K) ++ block.drop (min len K)],
                b.length = K := by
              intro b hb
              rcases List.mem_append.1 hb with h | h
              · exact hacc b h
              · simp only [List.mem_singleton] at h
                subst h
                rw [hmin, hbdrop, List.append_nil]
                exact htkK
            obtain ⟨ihF, ihsome⟩ := ih (len - min len K) (d.drop (min len K)) fd
              (acc ++ [d.take (min len K) ++ block.drop (min len K)]) p1
              (by omega) (by rw [List.length_drop]; omega) hF1 hacc'
            refine ⟨ihF, fun bs hbs => ?_⟩
            obtain ⟨nb', hbs', hlen', hK', hfl'⟩ := ihsome bs hbs
            refine ⟨(d.take (min len K) ++ block.drop (min len K)) :: nb', ?_, ?_, ?_, ?_⟩
            · rw [hbs', List.append_assoc, List.singleton_append]
            · simp only [List.length_cons, hlen', hmin]
              rw [blocksFor_succ hK hKlt]
            · intro b hb
              rcases List.mem_cons.1 hb with h | h
              · subst h
                exact hacc' _ (List.mem_append.2 (Or.inr (List.mem_singleton.2 rfl)))
              · exact hK' b h
            · simp only [List.flatten_cons, hmin, hbdrop, List.append_nil] at hfl' ⊢
              rw [List.take_append_eq_append_take, htkK,
                List.take_of_length_le (show (d.take K).length ≤ len by rw [htkK]; omega), hfl']
              rw [show (d.take len) = d.take (K + (len - K)) by congr 1; omega, List.take_add]

theorem allocGo_count_spec {K : Nat} (hK : 0 < K) :
    ∀ (fuel len : Nat) (d fd : List Byte) (acc : List Block) (p : Pool),
      len < fuel → len ≤ d.length → PoolWF K p → acc.length ≤ p.blockdata_count →
      (∀ b ∈ acc, b.length = K) →
      PoolWF K (allocGo K fuel fd (some d) len acc p).2.1 ∧
      (((allocGo K fuel fd (some d) len acc p).1 = none ∧
          (allocGo K fuel fd (some d) len acc p).2.1.blockdata_count + acc.length =
            p.blockdata_count) ∨
        (∃ nb, (allocGo K fuel fd (some d) len acc p).1 = some (acc ++ nb) ∧
          (allocGo K fuel fd (some d) len acc p).2.1.blockdata_count =
            p.blockdata_count + nb.length)) := by
  intro fuel
  induction fuel with
  | zero => intro len d fd acc p hf; omega
  | succ fuel ih =>
      intro len d fd acc p hf hd hPW hle hacc
      rcases hnb : new_block K p with ⟨rb, p1⟩
      have hsp := new_block_spec (K := K) (p := p) hPW
      rw [hnb] at hsp
      dsimp only at hsp
      obtain ⟨hPW1, hcase⟩ := hsp
      cases rb with
      | none =>
          rw [allocGo_succ_none hnb]
          rcases hcase with ⟨_, hcnt⟩ | ⟨b, hb, _⟩
          · have hle1 : acc.length ≤ p1.blockdata_count := by omega
            refine ⟨blockdata_free_poolWF hPW1 hacc hle1, Or.inl ⟨rfl, ?_⟩⟩
            have := blockdata_free_count (c := acc) (p := p1) hle1
            dsimp only
            omega
          · simp at hb
      | some block =>
          rcases hcase with ⟨hb, _⟩ | ⟨b, hb, hbK, hcnt⟩
          · simp at hb
          · simp only [Option.some.injEq] at hb
            subst hb
            rw [allocGo_succ_mem hnb]
            by_cases hz : len - min len K = 0
            · rw [if_pos hz]
              refine ⟨hPW1, Or.inr ⟨[d.take (min len K) ++ block.drop (min len K)], rfl, ?_⟩⟩
              dsimp only
              simp only [List.length_cons, List.length_nil]
              omega
            · rw [if_neg hz]
              have hKlt : K < len := by omega
              have hmin : min len K = K := min_eq_right (le_of_lt hKlt)
              have hbK' : (d.take (min len K) ++ block.drop (min len K)).length = K := by
                rw [List.length_append, List.length_take, List.length_drop, hbK]
                omega
              have hacc' : ∀ x ∈ acc ++ [d.take (min len K) ++ block.drop (min len K)],
                  x.length = K := by
                intro x hx
                rcases List.mem_append.1 hx with h | h
                · exact hacc x h
                · simp only [List.mem_singleton] at h
                  subst h
                  exact hbK'
              obtain ⟨ihPW, ihdisj⟩ := ih (len - min len K) (d.drop (min len K)) fd
                (acc ++ [d.take (min len K) ++ block.drop (min len K)]) p1
                (by omega) (by rw [List.length_drop]; omega) hPW1
                (by rw [List.length_append]
                    simp only [List.length_cons, List.length_nil]
                    omega)
                hacc'
              refine ⟨ihPW, ?_⟩
              rcases ihdisj with ⟨hnone, hcnt'⟩ | ⟨nb', hsome, hcnt'⟩
              · refine Or.inl ⟨hnone, ?_⟩
                rw [List.length_append] at hcnt'
                simp only [List.length_cons, List.length_nil] at hcnt'
                omega
              · refine Or.inr ⟨(d.take (min len K) ++ block.drop (min len K)) :: nb', ?_, ?_⟩
                · rw [hsome, List.append_assoc, List.singleton_append]
                · simp only [List.length_cons]
                  omega

theorem allocGo_no_malloc {K : Nat} (hK : 0 < K) :
    ∀ (fuel len : Nat) (d fd : List Byte) (acc : List Block) (p : Pool),
      len < fuel → blocksFor K len ≤ p.keyblock_free.length →
      ((allocGo K fuel fd (some d) len acc p).1).isSome = true ∧
      (allocGo K fuel fd (some d) len acc p).2.1.blockdata_alloced = p.blockdata_alloced ∧
      (allocGo K fuel fd (some d) len acc p).2.1.mallocs = p.mallocs := by
  intro fuel
  induction fuel with
  | zero => intro len d fd acc p hf; omega
  | succ fuel ih =>
      intro len d fd acc p hf hfree
      cases hfl : p.keyblock_free with
      | nil =>
          rw [hfl] at hfree
          have := blocksFor_pos hK len
          simp at hfree
          omega
      | cons b rest =>
          rw [allocGo_succ_mem (new_block_eq_pop hfl)]
          by_cases hz : len - min len K = 0
          · rw [if_pos hz]
            exact ⟨rfl, rfl, rfl⟩
          · rw [if_neg hz]
            have hKlt : K < len := by omega
            have hstep : blocksFor K (len - min len K) ≤ rest.length := by
              rw [min_eq_right (le_of_lt hKlt)]
              rw [hfl] at hfree
              rw [blocksFor_succ hK hKlt] at hfree
              simp only [List.length_cons] at hfree
              omega
            exact ih (len - min len K) (d.drop (min len K)) fd _ _ (by omega) hstep

/-! Step equations and specifications for the expansion loop. -/

theorem expandLoop_succ_done {K fuel newlen : Nat} {ys : List Byte} {headPart : List Block}
    {bcur : Block} {p : Pool} (hz : newlen - min newlen K = 0) :
    expandLoop K (fuel + 1) ys newlen headPart bcur p =
      (.ok (headPart ++ [ys.take (min newlen K) ++ bcur.drop (min newlen K)]), p) := by
  simp only [expandLoop, if_pos hz]

theorem expandLoop_succ_fail {K fuel newlen : Nat} {ys : List Byte} {headPart : List Block}
    {bcur : Block} {p p1 : Pool} (hz : ¬newlen - min newlen K = 0)
    (hnb : new_block K p = (none, p1)) :
    expandLoop K (fuel + 1) ys newlen headPart bcur p =
      (.fail, blockdata_free
        (headPart ++ [ys.take (min newlen K) ++ bcur.drop (min newlen K)]) p1) := by
  simp only [expandLoop, if_neg hz, hnb]

theorem expandLoop_succ_go {K fuel newlen : Nat} {ys : List Byte} {headPart : List Block}
    {bcur nb : Block} {p p1 : Pool} (hz : ¬newlen - min newlen K = 0)
    (hnb : new_block K p = (some nb, p1)) :
    expandLoop K (fuel + 1) ys newlen headPart bcur p =
      expandLoop K fuel (ys.drop (min newlen K)) (newlen - min newlen K)
        (headPart ++ [ys.take (min newlen K) ++ bcur.drop (min newlen K)]) nb p1 := by
  simp only [expandLoop, if_neg hz, hnb]

theorem expandLoop_content {K : Nat} (hK : 0 < K) :
    ∀ (fuel newlen : Nat) (ys : List Byte) (headPart : List Block) (bcur : Block) (p : Pool),
      0 < newlen → newlen ≤ fuel → newlen ≤ ys.length → bcur.length = K →
      (∀ b ∈ headPart, b.length = K) → FreeWF K p →
      FreeWF K (expandLoop K fuel ys newlen headPart bcur p).2 ∧
      ∀ c', (expandLoop K fuel ys newlen headPart bcur p).1 = .ok c' →
        ∃ filled, c' = headPart ++ filled ∧ filled.length = blocksFor K newlen ∧
          (∀ b ∈ filled, b.length = K) ∧ filled.flatten.take newlen = ys.take newlen := by
  intro fuel
  induction fuel with
  | zero => intro newlen ys headPart bcur p h0 hfu; omega
  | succ fuel ih =>
      intro newlen ys headPart bcur p h0 hfu hys hbc hhp hF
      by_cases hz : newlen - min newlen K = 0
      · rw [expandLoop_succ_done hz]
        have hnK : newlen ≤ K := by omega
        have hmin : min newlen K = newlen := min_eq_left hnK
        have htl : (ys.take newlen).length = newlen := by
          rw [List.length_take]
          omega
        refine ⟨hF, fun c' hc' => ?_⟩
        simp only [ExpandRes.ok.injEq] at hc'
        subst hc'
        refine ⟨[ys.take (min newlen K) ++ bcur.drop (min newlen K)], rfl, ?_, ?_, ?_⟩
        · simp [blocksFor_eq_one hK hnK]
        · intro b hb
          simp only [List.mem_singleton] at hb
          subst hb
          rw [List.length_append, List.length_take, List.length_drop, hbc]
          omega
        · simp only [List.flatten_cons, List.flatten_nil, List.append_nil, hmin]
          rw [List.take_append_eq_append_take, htl, List.take_of_length_le (le_of_eq htl),
            Nat.sub_self, List.take_zero, List.append_nil]
      · have hKlt : K < newlen := by omega
        have hmin : min newlen K = K := min_eq_right (le_of_lt hKlt)
        have hbdrop : bcur.drop K = [] := by rw [← hbc, List.drop_length]
        have htkK : (ys.take K).length = K := by
          rw [List.length_take]
          omega
        have hbK' : (ys.take (min newlen K) ++ bcur.drop (min newlen K)).length = K := by
          rw [hmin, hbdrop, List.append_nil]
          exact htkK
        have hhp' : ∀ b ∈ headPart ++ [ys.take (min newlen K) ++ bcur.drop (min newlen K)],
            b.length = K := by
          intro b hb
          rcases List.mem_append.1 hb with h | h
          · exact hhp b h
          · simp only [List.mem_singleton] at h
            subst h
            exact hbK'
        rcases hnb : new_block K p with ⟨rb, p1⟩
        have hWF := new_block_freeWF (K := K) (p := p) hF
        rw [hnb] at hWF
        dsimp only at hWF
        obtain ⟨hF1, hblen⟩ := hWF
        cases rb with
        | none =>
            rw [expandLoop_succ_fail hz hnb]
            exact ⟨blockdata_free_freeWF hF1 hhp', fun c' hc' => by simp at hc'⟩
        | some nb =>
            rw [expandLoop_succ_go hz hnb]
            obtain ⟨ihF, ihok⟩ := ih (newlen - min newlen K) (ys.drop (min newlen K)) _ nb p1
              (by omega) (by omega) (by rw [List.length_drop]; omega) (hblen nb rfl) hhp' hF1
            refine ⟨ihF, fun c' hc' => ?_⟩
            obtain ⟨filled', hc'', hlen', hK', hfl'⟩ := ihok c' hc'
            refine ⟨(ys.take (min newlen K) ++ bcur.drop (min newlen K)) :: filled', ?_, ?_, ?_, ?_⟩
            · rw [hc'', List.append_assoc, List.singleton_append]
            · simp only [List.length_cons, hlen', hmin]
              rw [blocksFor_succ hK hKlt]
            · intro b hb
              rcases List.mem_cons.1 hb with h | h
              · subst h
                exact hbK'
              · exact hK' b h
            · simp only [List.flatten_cons, hmin, hbdrop, List.append_nil] at hfl' ⊢
              rw [List.take_append_eq_append_take, htkK,
                List.take_of_length_le (show (ys.take K).length ≤ newlen by rw [htkK]; omega),
                hfl']
              rw [show (ys.take newlen) = ys.take (K + (newlen - K)) by congr 1; omega,
                List.take_add]

theorem expandLoop_count {K : Nat} (hK : 0 < K) :
    ∀ (fuel newlen : Nat) (ys : List Byte) (headPart : List Block) (bcur : Block) (p : Pool),
      0 < newlen → newlen ≤ fuel → newlen ≤ ys.length → PoolWF K p → bcur.length = K →
      (∀ b ∈ headPart, b.length = K) → headPart.length + 1 ≤ p.blockdata_count →
      PoolWF K (expandLoop K fuel ys newlen headPart bcur p).2 ∧
      (((expandLoop K fuel ys newlen headPart bcur p).1 = .fail ∧
          (expandLoop K fuel ys newlen headPart bcur p).2.blockdata_count +
            headPart.length + 1 = p.blockdata_count) ∨
        (∃ filled, (expandLoop K fuel ys newlen headPart bcur p).1 = .ok (headPart ++ filled) ∧
          0 < filled.length ∧
          (expandLoop K fuel ys newlen headPart bcur p).2.blockdata_count + 1 =
            p.blockdata_count + filled.length)) := by
  intro fuel
  induction fuel with
  | zero => intro newlen ys headPart bcur p h0 hfu; omega
  | succ fuel ih =>
      intro newlen ys headPart bcur p h0 hfu hys hPW hbc hhp hle
      by_cases hz : newlen - min newlen K = 0
      · rw [expandLoop_succ_done hz]
        exact ⟨hPW, Or.inr ⟨[ys.take (min newlen K) ++ bcur.drop (min newlen K)], rfl,
          by simp, by simp⟩⟩
      · have hKlt : K < newlen := by omega
        have hmin : min newlen K = K := min_eq_right (le_of_lt hKlt)
        have hbdrop : bcur.drop K = [] := by rw [← hbc, List.drop_length]
        have hbK' : (ys.take (min newlen K) ++ bcur.drop (min newlen K)).length = K := by
          rw [hmin, hbdrop, List.append_nil, List.length_take]
          omega
        have hhp' : ∀ b ∈ headPart ++ [ys.take (min newlen K) ++ bcur.drop (min newlen K)],
            b.length = K := by
          intro b hb
          rcases List.mem_append.1 hb with h | h
          · exact hhp b h
          · simp only [List.mem_singleton] at h
            subst h
            exact hbK'
        rcases hnb : new_block K p with ⟨rb, p1⟩
        have hsp := new_block_spec (K := K) (p := p) hPW
        rw [hnb] at hsp
        dsimp only at hsp
        obtain ⟨hPW1, hcase⟩ := hsp
        cases rb with
        | none =>
            rcases hcase with ⟨_, hcnt⟩ | ⟨b, hb, _⟩
            · rw [expandLoop_succ_fail hz hnb]
              have hle1 : (headPart ++ [ys.take (min newlen K) ++ bcur.drop (min newlen K)]).length
                  ≤ p1.blockdata_count := by
                rw [List.length_append]
                simp only [List.length_cons, List.length_nil]
                omega
              refine ⟨blockdata_free_poolWF hPW1 hhp' hle1, Or.inl ⟨rfl, ?_⟩⟩
              have := blockdata_free_count hle1
              rw [List.length_append] at this
              simp only [List.length_cons, List.length_nil] at this
              dsimp only
              omega
            · simp at hb
        | some nb =>
            rcases hcase with ⟨hb, _⟩ | ⟨b, hb, hbKnb, hcnt⟩
            · simp at hb
            · simp only [Option.some.injEq] at hb
              subst hb
              rw [expandLoop_succ_go hz hnb]
              obtain ⟨ihPW, ihdisj⟩ := ih (newlen - min newlen K) (ys.drop (min newlen K)) _ nb p1
                (by omega) (by omega) (by rw [List.length_drop]; omega) hPW1 hbKnb hhp'
                (by rw [List.length_append]
                    simp only [List.length_cons, List.length_nil]
                    omega)
              refine ⟨ihPW, ?_⟩
              rcases ihdisj with ⟨hfail, hcnt'⟩ | ⟨filled', hok, hpos', hcnt'⟩
              · refine Or.inl ⟨hfail, ?_⟩
                rw [List.length_append] at hcnt'
                simp only [List.length_cons, List.length_nil] at hcnt'
                omega
              · refine Or.inr ⟨(ys.take (min newlen K) ++ bcur.drop (min newlen K)) :: filled',
                  ?_, by simp, ?_⟩
                · rw [hok, List.append_assoc, List.singleton_append]
                · simp only [List.length_cons]
                  omega

/-! Step equations for blockdata_expand. -/

theorem blockdata_expand_eq_guard {K : Nat} {c : List Block} {L : Nat} {ys : List Byte}
    {newlen : Nat} {p : Pool} {m ol : Nat} (hw : walk K c L = (m, ol)) (hol : K < ol) :
    blockdata_expand K c L ys newlen p = (.fail, blockdata_free c p) := by
  unfold blockdata_expand
  rw [hw]
  simp only [if_pos hol]

theorem blockdata_expand_eq_done {K : Nat} {c : List Block} {L : Nat} {ys : List Byte}
    {newlen : Nat} {p : Pool} {m ol : Nat} {bm : Block} (hw : walk K c L = (m, ol))
    (hol : ¬K < ol) (hbm : (c.drop m).head? = some bm)
    (hz : newlen - min newlen (K - ol) = 0) :
    blockdata_expand K c L ys newlen p =
      (.ok (c.take m ++
        (bm.take ol ++ ys.take (min newlen (K - ol)) ++ bm.drop (ol + min newlen (K - ol))) ::
        c.drop (m + 1)), p) := by
  unfold blockdata_expand
  rw [hw]
  simp only [if_neg hol, hbm, if_pos hz]

theorem blockdata_expand_eq_acqfail {K : Nat} {c : List Block} {L : Nat} {ys : List Byte}
    {newlen : Nat} {p p1 : Pool} {m ol : Nat} {bm : Block} (hw : walk K c L = (m, ol))
    (hol : ¬K < ol) (hbm : (c.drop m).head? = some bm)
    (hz : ¬newlen - min newlen (K - ol) = 0) (hnb : new_block K p = (none, p1)) :
    blockdata_expand K c L ys newlen p =
      (.fail, blockdata_free (c.take m ++
        (bm.take ol ++ ys.take (min newlen (K - ol)) ++ bm.drop (ol + min newlen (K - ol))) ::
        c.drop (m + 1)) p1) := by
  unfold blockdata_expand
  rw [hw]
  simp only [if_neg hol, hbm, if_neg hz, hnb]

theorem blockdata_expand_eq_go {K : Nat} {c : List Block} {L : Nat} {ys : List Byte}
    {newlen : Nat} {p p1 : Pool} {m ol : Nat} {bm nb : Block} (hw : walk K c L = (m, ol))
    (hol : ¬K < ol) (hbm : (c.drop m).head? = some bm)
    (hz : ¬newlen - min newlen (K - ol) = 0) (hnb : new_block K p = (some nb, p1)) :
    blockdata_expand K c L ys newlen p =
      expandLoop K (newlen - min newlen (K - ol)) (ys.drop (min newlen (K - ol)))
        (newlen - min newlen (K - ol))
        (c.take m ++
          [bm.take ol ++ ys.take (min newlen (K - ol)) ++ bm.drop (ol + min newlen (K - ol))])
        nb p1 := by
  unfold blockdata_expand
  rw [hw]
  simp only [if_neg hol, hbm, if_neg hz, hnb]

theorem blockdata_expand_content {K : Nat} (hK : 0 < K) (ch : List Block) (L : Nat)
    (ys : List Byte) (p : Pool) (hWF : ChainWF K ch L) (hF : FreeWF K p) :
    FreeWF K (blockdata_expand K ch L ys ys.length p).2 ∧
    ∀ ch', (blockdata_expand K ch L ys ys.length p).1 = .ok ch' →
      ChainWF K ch' (L + ys.length) ∧
      ch'.flatten.take (L + ys.length) = ch.flatten.take L ++ ys ∧
      ch'.take (ch.length - 1) = ch.take (ch.length - 1) ∧
      (ch'[ch.length - 1]?).map (fun b => b.take (L - (ch.length - 1) * K)) =
        (ch[ch.length - 1]?).map (fun b => b.take (L - (ch.length - 1) * K)) := by
  obtain ⟨hclen, hcK⟩ := hWF
  rcases List.eq_nil_or_concat' ch with rfl | ⟨xs, x, rfl⟩
  · exfalso
    have := blocksFor_pos hK L
    simp at hclen
    omega
  have hlen1 : (xs ++ [x]).length = xs.length + 1 := by simp
  obtain ⟨hw, hlb, hub, hpos⟩ := walk_consistent hK (xs ++ [x]) L hclen
  rw [hlen1] at hw hlb hub hpos
  rw [Nat.add_sub_cancel] at hw hlb hpos
  have hP1 : (xs.length + 1) * K = xs.length * K + K := Nat.succ_mul _ _
  have hol : ¬K < L - xs.length * K := by omega
  have hbm : ((xs ++ [x]).drop xs.length).head? = some x := by
    rw [List.drop_left]
    rfl
  have hxK : x.length = K := hcK x (by simp)
  have hxsK : ∀ b ∈ xs, b.length = K := fun b hb => hcK b (by simp [hb])
  have htake : (xs ++ [x]).take xs.length = xs := List.take_left _ _
  have hdrop1 : (xs ++ [x]).drop (xs.length + 1) = [] := by
    have h1 := @List.drop_append _ xs [x] 1
    simp only [List.drop_succ_cons, List.drop_nil] at h1
    exact h1
  have hLol : L = xs.length * K + (L - xs.length * K) := by omega
  have holK : L - xs.length * K ≤ K := by omega
  have hxsf : xs.flatten.length = xs.length * K := flatten_length_of_blocks xs hxsK
  have hcf : (xs ++ [x]).flatten = xs.flatten ++ x := by simp
  have hxtol : (x.take (L - xs.length * K)).length = L - xs.length * K := by
    rw [List.length_take]
    omega
  have hcfl : (xs ++ [x]).flatten.take L = xs.flatten ++ x.take (L - xs.length * K) := by
    rw [hcf, List.take_append_eq_append_take, List.take_of_length_le (by omega), hxsf]
  have hclast : (xs ++ [x])[(xs ++ [x]).length - 1]? = some x := by
    rw [hlen1, Nat.add_sub_cancel]
    exact List.getElem?_concat_length xs x
  set ol := L - xs.length * K with holdef
  set size1 := min ys.length (K - ol) with hs1def
  have hs1y : size1 ≤ ys.length := by omega
  have hs1K : size1 ≤ K - ol := by omega
  have hys1 : (ys.take size1).length = size1 := by
    rw [List.length_take]
    omega
  have hwlen : (x.take ol ++ ys.take size1 ++ x.drop (ol + size1)).length = K := by
    rw [List.length_append, List.length_append, List.length_take, List.length_take,
      List.length_drop, hxK]
    omega
  have hwtol : (x.take ol ++ ys.take size1 ++ x.drop (ol + size1)).take ol = x.take ol := by
    rw [List.append_assoc]
    exact List.take_left' (by rw [List.length_take]; omega)
  by_cases hz : ys.length - size1 = 0
  · rw [blockdata_expand_eq_done hw hol hbm hz, htake, hdrop1]
    have hseq : size1 = ys.length := by omega
    have hyl : ys.length ≤ K - ol := by omega
    refine ⟨hF, fun c' hc' => ?_⟩
    simp only [ExpandRes.ok.injEq] at hc'
    subst hc'
    have hbf : blocksFor K (L + ys.length) = xs.length + 1 := by
      by_cases hL0 : L + ys.length = 0
      · rw [hL0]
        have : L = 0 := by omega
        rw [this] at hclen
        rw [hlen1] at hclen
        exact hclen.symm
      · have hpos2 : 0 < ol + ys.length := by
          by_cases hLz : 0 < L
          · have := hpos hLz
            omega
          · omega
        rw [show L + ys.length = xs.length * K + (ol + ys.length) by omega,
          blocksFor_add_mul hK hpos2, blocksFor_eq_one hK (by omega)]
    refine ⟨⟨?_, ?_⟩, ?_, ?_, ?_⟩
    · simp only [List.length_append, List.length_cons, List.length_nil, hbf]
    · intro b hb
      rcases List.mem_append.1 hb with h | h
      · exact hxsK b h
      · simp only [List.mem_cons, List.not_mem_nil, or_false] at h
        subst h
        exact hwlen
    · have hflat : (xs ++ [x.take ol ++ ys.take size1 ++ x.drop (ol + size1)]).flatten =
          xs.flatten ++ (x.take ol ++ ys.take size1 ++ x.drop (ol + size1)) := by simp
      rw [hflat, List.take_append_eq_append_take, List.take_of_length_le (by omega), hxsf,
        show L + ys.length - xs.length * K = ol + ys.length by omega]
      rw [show (x.take ol ++ ys.take size1 ++ x.drop (ol + size1)) =
        (x.take ol ++ ys.take size1) ++ x.drop (ol + size1) from rfl]
      rw [@List.take_append_eq_append_take _ (x.take ol ++ ys.take size1) _ _,
        List.take_of_length_le (by rw [List.length_append, List.length_take, List.length_take]
                                   omega),
        show ol + ys.length - (x.take ol ++ ys.take size1).length = 0 by
          rw [List.length_append, List.length_take, List.length_take]
          omega,
        List.take_zero, List.append_nil, hcfl, hseq, List.take_length, List.append_assoc]
    · rw [hlen1, Nat.add_sub_cancel, htake]
      exact List.take_left _ _
    · rw [hclast, hlen1, Nat.add_sub_cancel, List.getElem?_concat_length]
      simp only [Option.map_some']
      rw [← holdef, hwtol]
  · have hs1 : size1 = K - ol := by omega
    have hdropK : x.drop (ol + size1) = [] := by
      rw [show ol + size1 = K by omega, ← hxK, List.drop_length]
    have hwl2 : x.take ol ++ ys.take size1 ++ x.drop (ol + size1) =
        x.take ol ++ ys.take size1 := by
      rw [hdropK, List.append_nil]
    rcases hnb : new_block K p with ⟨rb, p1⟩
    have hWFnb := new_block_freeWF (K := K) (p := p) hF
    rw [hnb] at hWFnb
    dsimp only at hWFnb
    obtain ⟨hF1, hblen⟩ := hWFnb
    have hwlK : ∀ b ∈ xs ++ [x.take ol ++ ys.take size1 ++ x.drop (ol + size1)],
        b.length = K := by
      intro b hb
      rcases List.mem_append.1 hb with h | h
      · exact hxsK b h
      · simp only [List.mem_cons, List.not_mem_nil, or_false] at h
        subst h
        exact hwlen
    cases rb with
    | none =>
        rw [blockdata_expand_eq_acqfail hw hol hbm hz hnb, htake, hdrop1]
        exact ⟨blockdata_free_freeWF hF1 hwlK, fun c' hc' => by simp at hc'⟩
    | some nb =>
        rw [blockdata_expand_eq_go hw hol hbm hz hnb, htake]
        obtain ⟨ihF, ihok⟩ := expandLoop_content hK (ys.length - size1) (ys.length - size1)
          (ys.drop size1) (xs ++ [x.take ol ++ ys.take size1 ++ x.drop (ol + size1)]) nb p1
          (by omega) (le_refl _) (by rw [List.length_drop]) (hblen nb rfl) hwlK hF1
        refine ⟨ihF, fun c' hc' => ?_⟩
        obtain ⟨filled, hc'', hflen, hfK, hffl⟩ := ihok c' hc'
        have hfdrop : (ys.drop size1).take (ys.length - size1) = ys.drop size1 :=
          List.take_of_length_le (by rw [List.length_drop])
        rw [hfdrop] at hffl
        have hc'len : c'.length = xs.length + 1 + filled.length := by
          rw [hc'', List.length_append, List.length_append]
          simp
        refine ⟨⟨?_, ?_⟩, ?_, ?_, ?_⟩
        · rw [hc'len, hflen,
            show L + ys.length = (xs.length + 1) * K + (ys.length - size1) by omega,
            blocksFor_add_mul hK (by omega)]
        · intro b hb
          rw [hc''] at hb
          rcases List.mem_append.1 hb with h | h
          · exact hwlK b h
          · exact hfK b h
        · rw [hc'']
          have hflat2 : ((xs ++ [x.take ol ++ ys.take size1 ++ x.drop (ol + size1)]) ++
              filled).flatten =
              (xs.flatten ++ (x.take ol ++ ys.take size1)) ++ filled.flatten := by
            rw [hwl2]
            simp
          rw [hflat2, List.take_append_eq_append_take,
            List.take_of_length_le (by
              rw [List.length_append, hxsf, List.length_append, List.length_take,
                List.length_take]
              omega),
            show L + ys.length - (xs.flatten ++ (x.take ol ++ ys.take size1)).length =
                ys.length - size1 by
              rw [List.length_append, hxsf, List.length_append, List.length_take,
                List.length_take]
              omega,
            hffl, hcfl]
          rw [List.append_assoc, List.append_assoc, List.append_assoc]
          congr 2
          exact List.take_append_drop _ _
        · rw [hc'', hlen1, Nat.add_sub_cancel, htake]
          rw [List.take_append_eq_append_take,
            show xs.length - (xs ++ [x.take ol ++ ys.take size1 ++ x.drop (ol + size1)]).length
              = 0 by simp,
            List.take_zero, List.append_nil]
          exact List.take_left' (by simp)
        · rw [hclast, hc'', hlen1, Nat.add_sub_cancel]
          rw [List.getElem?_append_left (by simp), List.getElem?_concat_length]
          simp only [Option.map_some']
          rw [← holdef, hwtol]

theorem blockdata_expand_count {K : Nat} (hK : 0 < K) (ch : List Block) (L : Nat)
    (ys : List Byte) (p : Pool) (hWF : ChainWF K ch L) (hPW : PoolWF K p)
    (hle : ch.length ≤ p.blockdata_count) :
    PoolWF K (blockdata_expand K ch L ys ys.length p).2 ∧
    (((blockdata_expand K ch L ys ys.length p).1 = .fail ∧
        (blockdata_expand K ch L ys ys.length p).2.blockdata_count + ch.length =
          p.blockdata_count) ∨
      (∃ ch', (blockdata_expand K ch L ys ys.length p).1 = .ok ch' ∧
        ch.length ≤ ch'.length ∧
        (blockdata_expand K ch L ys ys.length p).2.blockdata_count + ch.length =
          p.blockdata_count + ch'.length)) := by
  obtain ⟨hclen, hcK⟩ := hWF
  rcases List.eq_nil_or_concat' ch with rfl | ⟨xs, x, rfl⟩
  · exfalso
    have := blocksFor_pos hK L
    simp at hclen
    omega
  have hlen1 : (xs ++ [x]).length = xs.length + 1 := by simp
  obtain ⟨hw, hlb, hub, hpos⟩ := walk_consistent hK (xs ++ [x]) L hclen
  rw [hlen1] at hw hlb hub hpos
  rw [Nat.add_sub_cancel] at hw hlb hpos
  have hP1 : (xs.length + 1) * K = xs.length * K + K := Nat.succ_mul _ _
  have hol : ¬K < L - xs.length * K := by omega
  have hbm : ((xs ++ [x]).drop xs.length).head? = some x := by
    rw [List.drop_left]
    rfl
  have hxK : x.length = K := hcK x (by simp)
  have hxsK : ∀ b ∈ xs, b.length = K := fun b hb => hcK b (by simp [hb])
  have htake : (xs ++ [x]).take xs.length = xs := List.take_left _ _
  have hdrop1 : (xs ++ [x]).drop (xs.length + 1) = [] := by
    have h1 := @List.drop_append _ xs [x] 1
    simp only [List.drop_succ_cons, List.drop_nil] at h1
    exact h1
  set ol := L - xs.length * K with holdef
  have holK : ol ≤ K := by omega
  set size1 := min ys.length (K - ol) with hs1def
  have hs1y : size1 ≤ ys.length := by omega
  have hs1K : size1 ≤ K - ol := by omega
  have hwlen : (x.take ol ++ ys.take size1 ++ x.drop (ol + size1)).length = K := by
    rw [List.length_append, List.length_append, List.length_take, List.length_take,
      List.length_drop, hxK]
    omega
  have hwlK : ∀ b ∈ xs ++ [x.take ol ++ ys.take size1 ++ x.drop (ol + size1)],
      b.length = K := by
    intro b hb
    rcases List.mem_append.1 hb with h | h
    · exact hxsK b h
    · simp only [List.mem_cons, List.not_mem_nil, or_false] at h
      subst h
      exact hwlen
  rw [hlen1] at hle
  by_cases hz : ys.length - size1 = 0
  · rw [blockdata_expand_eq_done hw hol hbm hz, htake, hdrop1]
    refine ⟨hPW, Or.inr ⟨_, rfl, ?_, ?_⟩⟩
    · simp [hlen1]
    · dsimp only
      simp only [List.length_append, List.length_cons, List.length_nil, hlen1]
  · rcases hnb : new_block K p with ⟨rb, p1⟩
    have hsp := new_block_spec (K := K) (p := p) hPW
    rw [hnb] at hsp
    dsimp only at hsp
    obtain ⟨hPW1, hcase⟩ := hsp
    cases rb with
    | none =>
        rcases hcase with ⟨_, hcnt⟩ | ⟨b, hb, _⟩
        · rw [blockdata_expand_eq_acqfail hw hol hbm hz hnb, htake, hdrop1]
          rw [show ys.length ⊓ (K - ol) = size1 from hs1def.symm]
          have hle1 : (xs ++ [x.take ol ++ ys.take size1 ++ x.drop (ol + size1)] : List Block).length
              ≤ p1.blockdata_count := by
            simp only [List.length_append, List.length_cons, List.length_nil]
            omega
          have hfc := blockdata_free_count hle1
          simp only [List.length_append, List.length_cons, List.length_nil] at hfc
          refine ⟨blockdata_free_poolWF hPW1 hwlK hle1, Or.inl ⟨rfl, ?_⟩⟩
          dsimp only
          simp only [List.length_append, List.length_cons, List.length_nil, hlen1]
          omega
        · simp at hb
    | some nb =>
        rcases hcase with ⟨hb, _⟩ | ⟨b, hb, hbKnb, hcnt⟩
        · simp at hb
        · simp only [Option.some.injEq] at hb
          subst hb
          rw [blockdata_expand_eq_go hw hol hbm hz hnb, htake]
          rw [show ys.length ⊓ (K - ol) = size1 from hs1def.symm]
          obtain ⟨ihPW, ihdisj⟩ := expandLoop_count hK (ys.length - size1) (ys.length - size1)
            (ys.drop size1) (xs ++ [x.take ol ++ ys.take size1 ++ x.drop (ol + size1)]) nb p1
            (by omega) (le_refl _) (by rw [List.length_drop]) hPW1 hbKnb hwlK
            (by simp only [List.length_append, List.length_cons, List.length_nil]
                omega)
          refine ⟨ihPW, ?_⟩
          rcases ihdisj with ⟨hfail, hcnt'⟩ | ⟨filled, hok, hposf, hcnt'⟩
          · refine Or.inl ⟨hfail, ?_⟩
            simp only [List.length_append, List.length_cons, List.length_nil] at hcnt'
            simp only [hlen1]
            omega
          · refine Or.inr ⟨_, hok, ?_, ?_⟩
            · simp only [List.length_append, List.length_cons, List.length_nil, hlen1]
              omega
            · simp only [List.length_append, List.length_cons, List.length_nil, hlen1] at hcnt' ⊢
              omega

/-! Live-chain bookkeeping for operation sequences. -/

theorem sumBlocks_cons (x : List Block × Nat) (t : List (List Block × Nat)) :
    sumBlocks (x :: t) = x.1.length + sumBlocks t := by
  simp [sumBlocks]

theorem sumBlocks_append_single (live : List (List Block × Nat)) (x : List Block × Nat) :
    sumBlocks (live ++ [x]) = sumBlocks live + x.1.length := by
  simp [sumBlocks]

theorem le_sumBlocks : ∀ (live : List (List Block × Nat)) (i : Nat) (cl : List Block × Nat),
    live[i]? = some cl → cl.1.length ≤ sumBlocks live := by
  intro live
  induction live with
  | nil => intro i cl h; simp at h
  | cons x t ih =>
      intro i cl h
      cases i with
      | zero =>
          rw [List.getElem?_cons_zero, Option.some.injEq] at h
          subst h
          rw [sumBlocks_cons]
          omega
      | succ i =>
          rw [List.getElem?_cons_succ] at h
          have := ih i cl h
          rw [sumBlocks_cons]
          omega

theorem sumBlocks_eraseIdx : ∀ (live : List (List Block × Nat)) (i : Nat) (cl : List Block × Nat),
    live[i]? = some cl → sumBlocks (live.eraseIdx i) + cl.1.length = sumBlocks live := by
  intro live
  induction live with
  | nil => intro i cl h; simp at h
  | cons x t ih =>
      intro i cl h
      cases i with
      | zero =>
          rw [List.getElem?_cons_zero, Option.some.injEq] at h
          subst h
          rw [List.eraseIdx_cons_zero, sumBlocks_cons]
          omega
      | succ i =>
          rw [List.getElem?_cons_succ] at h
          have := ih i cl h
          rw [List.eraseIdx_cons_succ, sumBlocks_cons, sumBlocks_cons]
          omega

theorem sumBlocks_set : ∀ (live : List (List Block × Nat)) (i : Nat) (cl : List Block × Nat)
    (x : List Block × Nat), live[i]? = some cl →
    sumBlocks (live.set i x) + cl.1.length = sumBlocks live + x.1.length := by
  intro live
  induction live with
  | nil => intro i cl x h; simp at h
  | cons y t ih =>
      intro i cl x h
      cases i with
      | zero =>
          rw [List.getElem?_cons_zero, Option.some.injEq] at h
          subst h
          rw [List.set_cons_zero, sumBlocks_cons, sumBlocks_cons]
          omega
      | succ i =>
          rw [List.getElem?_cons_succ] at h
          have := ih i cl x h
          rw [List.set_cons_succ, sumBlocks_cons, sumBlocks_cons]
          omega

theorem blockdata_init_poolWF (K : Nat) (dnssec : Bool) (cachesize : Nat)
    (mallocs : List (Option (Nat → Nat → Byte))) :
    PoolWF K (blockdata_init K dnssec cachesize mallocs) := by
  have h0 : PoolWF K (⟨[], 0, 0, 0, mallocs, [0]⟩ : Pool) := by
    refine ⟨rfl, rfl, ?_, ?_⟩
    · show (0 : Nat) = max 0 0
      simp
    · intro b hb
      simp at hb
  unfold blockdata_init
  split
  · exact add_blocks_poolWF cachesize h0
  · exact h0

theorem step_preserves {K : Nat} (hK : 0 < K) (s : St) (op : Op) (hI : StInv K s) :
    StInv K (step K s op) := by
  obtain ⟨hPW, hcnt, hchains⟩ := hI
  cases op with
  | alloc d =>
      have halloc : blockdata_alloc K (some d) d.length s.pool =
          allocGo K (d.length + 1) [] (some d) d.length [] s.pool := rfl
      obtain ⟨hPW', hdisj⟩ := allocGo_count_spec hK (d.length + 1) d.length d []
        [] s.pool (by omega) (le_refl _) hPW (by simp) (by simp)
      obtain ⟨hF', hsome⟩ := allocGo_mem_spec hK (d.length + 1) d.length d []
        [] s.pool (by omega) (le_refl _) hPW.2.2.2 (by simp)
      rw [← halloc] at hPW' hdisj hF' hsome
      cases hr : (blockdata_alloc K (some d) d.length s.pool).1 with
      | none =>
          have hstep : step K s (.alloc d) =
              { pool := (blockdata_alloc K (some d) d.length s.pool).2.1,
                live := s.live } := by
            simp only [step, hr]
          rw [hstep]
          rcases hdisj with ⟨_, hc⟩ | ⟨nb, hsome', _⟩
          · refine ⟨hPW', ?_, hchains⟩
            simp only [List.length_nil] at hc
            dsimp only
            omega
          · rw [hsome'] at hr
            simp at hr
      | some bs =>
          have hstep : step K s (.alloc d) =
              { pool := (blockdata_alloc K (some d) d.length s.pool).2.1,
                live := s.live ++ [(bs, d.length)] } := by
            simp only [step, hr]
          rw [hstep]
          rcases hdisj with ⟨hnone, _⟩ | ⟨nb, hsome', hcrel⟩
          · rw [hnone] at hr
            simp at hr
          · rw [hsome'] at hr
            simp only [List.nil_append, Option.some.injEq] at hr
            subst hr
            obtain ⟨nb2, hbs2, hlen2, hK2, _⟩ := hsome nb hsome'
            simp only [List.nil_append] at hbs2
            refine ⟨hPW', ?_, ?_⟩
            · dsimp only
              rw [sumBlocks_append_single, ← hcnt, hcrel]
            · intro cl hclmem
              rcases List.mem_append.1 hclmem with h | h
              · exact hchains cl h
              · simp only [List.mem_singleton] at h
                subst h
                exact ⟨by rw [hbs2, hlen2], by rw [hbs2]; exact hK2⟩
  | expand i d =>
      cases hcl : s.live[i]? with
      | none =>
          have hstep : step K s (.expand i d) = s := by simp only [step, hcl]
          rw [hstep]
          exact ⟨hPW, hcnt, hchains⟩
      | some cl =>
          have hclWF : ChainWF K cl.1 cl.2 := hchains cl (List.getElem?_mem hcl)
          have hle : cl.1.length ≤ s.pool.blockdata_count := by
            rw [hcnt]
            exact le_sumBlocks s.live i cl hcl
          obtain ⟨hPW', hdisj⟩ := blockdata_expand_count hK cl.1 cl.2 d s.pool hclWF hPW hle
          obtain ⟨hF', hok⟩ := blockdata_expand_content hK cl.1 cl.2 d s.pool hclWF hPW.2.2.2
          cases hr : (blockdata_expand K cl.1 cl.2 d d.length s.pool).1 with
          | ub =>
              exfalso
              rcases hdisj with ⟨hfail, _⟩ | ⟨ch', hok', _⟩
              · rw [hfail] at hr
                simp at hr
              · rw [hok'] at hr
                simp at hr
          | fail =>
              have hstep : step K s (.expand i d) =
                  { pool := (blockdata_expand K cl.1 cl.2 d d.length s.pool).2,
                    live := s.live.eraseIdx i } := by
                simp only [step, hcl, hr]
              rw [hstep]
              rcases hdisj with ⟨_, hc⟩ | ⟨ch', hok', _⟩
              · refine ⟨hPW', ?_, ?_⟩
                · have herase := sumBlocks_eraseIdx s.live i cl hcl
                  rw [← hcnt] at herase
                  dsimp only
                  omega
                · intro x hx
                  exact hchains x (List.mem_of_mem_eraseIdx hx)
              · rw [hok'] at hr
                simp at hr
          | ok c' =>
              have hstep : step K s (.expand i d) =
                  { pool := (blockdata_expand K cl.1 cl.2 d d.length s.pool).2,
                    live := s.live.set i (c', cl.2 + d.length) } := by
                simp only [step, hcl, hr]
              rw [hstep]
              rcases hdisj with ⟨hfail, _⟩ | ⟨ch', hok', hlen', hcrel⟩
              · rw [hfail] at hr
                simp at hr
              · rw [hok'] at hr
                simp only [ExpandRes.ok.injEq] at hr
                subst hr
                obtain ⟨hWF', _, _, _⟩ := hok ch' hok'
                refine ⟨hPW', ?_, ?_⟩
                · have hset := sumBlocks_set s.live i cl (ch', cl.2 + d.length) hcl
                  rw [← hcnt] at hset
                  dsimp only at hset ⊢
                  omega
                · intro x hx
                  rcases List.mem_or_eq_of_mem_set hx with h | h
                  · exact hchains x h
                  · subst h
                    exact hWF'
  | free i =>
      cases hcl : s.live[i]? with
      | none =>
          have hstep : step K s (.free i) = s := by simp only [step, hcl]
          rw [hstep]
          exact ⟨hPW, hcnt, hchains⟩
      | some cl =>
          have hclWF : ChainWF K cl.1 cl.2 := hchains cl (List.getElem?_mem hcl)
          have hle : cl.1.length ≤ s.pool.blockdata_count := by
            rw [hcnt]
            exact le_sumBlocks s.live i cl hcl
          have hstep : step K s (.free i) =
              { pool := blockdata_free cl.1 s.pool, live := s.live.eraseIdx i } := by
            simp only [step, hcl]
          rw [hstep]
          refine ⟨blockdata_free_poolWF hPW hclWF.2 hle, ?_, ?_⟩
          · have herase := sumBlocks_eraseIdx s.live i cl hcl
            have hfc := blockdata_free_count (c := cl.1) (p := s.pool) hle
            rw [← hcnt] at herase
            dsimp only
            omega
          · intro x hx
            exact hchains x (List.mem_of_mem_eraseIdx hx)

theorem run_preserves {K : Nat} (hK : 0 < K) :
    ∀ (ops : List Op) (s : St), StInv K s → StInv K (run K s ops) := by
  intro ops
  induction ops with
  | nil => intro s h; exact h
  | cons op ops ih => intro s h; exact ih _ (step_preserves hK s op h)

/-! Claim theorems. -/

/-- C1 (code-bug evidence): no-leak on failure is violated on the short-read path.
With K = 4, a pool holding one free block and in_use_count 0, blockdata_read of
length 1 from an empty stream fails the descriptor read.  The call returns failure,
but in_use_count is 1 afterwards and the free list is empty: the block acquired for
the current iteration was never linked into the partial chain, and blockdata_free
releases only that chain, so the block is leaked — contradicting the claim that
in_use_count returns to its pre-call value on every failure.  (The acquire-failure
path does unwind fully; only the short-read path leaks.) -/
theorem read_short_leak :
    (blockdata_read 4 [] 1 ⟨[[0, 0, 0, 0]], 0, 0, 1, [], [0]⟩).1 = none ∧
    (⟨[[0, 0, 0, 0]], 0, 0, 1, [], [0]⟩ : Pool).blockdata_count = 0 ∧
    (blockdata_read 4 [] 1 ⟨[[0, 0, 0, 0]], 0, 0, 1, [], [0]⟩).2.1.blockdata_count = 1 ∧
    (blockdata_read 4 [] 1 ⟨[[0, 0, 0, 0]], 0, 0, 1, [], [0]⟩).2.1.keyblock_free.length = 0 := by
  decide

/-- C2 (code-bug evidence): the too-short-chain guard has an off-by-one.  With K = 4
and a one-block chain, old_length 5 needs a second block which does not exist; the
walk stops at the null block pointer with remaining old_length 1 ≤ 4, the guard does
not fire, and the copy dereferences the null pointer (modelled as ub) with the pool
untouched — the chain is neither released nor is failure returned.  A chain short by
two blocks (old_length 9) is caught and released as the claim describes. -/
theorem expand_short_chain_crash :
    (blockdata_expand 4 [[10, 11, 12, 13]] 5 [7] 1 ⟨[], 1, 1, 1, [], [1, 0]⟩).1 = .ub ∧
    (blockdata_expand 4 [[10, 11, 12, 13]] 5 [7] 1
      ⟨[], 1, 1, 1, [], [1, 0]⟩).2.blockdata_count = 1 ∧
    (blockdata_expand 4 [[10, 11, 12, 13]] 9 [7] 1 ⟨[], 1, 1, 1, [], [1, 0]⟩).1 = .fail := by
  decide

/-- C3: round trip.  For every byte sequence S, if blockdata_alloc from the in-memory
source succeeds on a pool whose free blocks have capacity K, then blockdata_retrieve
of the resulting chain with length S.length into a caller-supplied buffer of exactly
that length returns S byte for byte (and does not touch the scratch state). -/
theorem alloc_retrieve_round_trip (K : Nat) (hK : 0 < K) (S : List Byte) (p : Pool)
    (hF : FreeWF K p) (bs : List Block)
    (hsucc : (blockdata_alloc K (some S) S.length p).1 = some bs)
    (dest : List Byte) (hdest : dest.length = S.length) (sc : Scratch)
    (malloc : Option (Nat → Byte)) :
    blockdata_retrieve K bs S.length (some dest) sc malloc = (.buf S, sc) := by
  obtain ⟨hF', hsome⟩ := allocGo_mem_spec hK (S.length + 1) S.length S [] [] p
    (by omega) (le_refl _) hF (by simp)
  obtain ⟨nb, hbs, hlen, hKb, hfl⟩ := hsome bs hsucc
  simp only [List.nil_append] at hbs
  subst hbs
  have hw : retrieveLoop K bs S.length = S := by
    rw [retrieveLoop_eq_flatten bs hKb, hfl, List.take_length]
  have hdrop : dest.drop S.length = [] := by
    rw [← hdest, List.drop_length]
  have hgoal : blockdata_retrieve K bs S.length (some dest) sc malloc =
      (.buf (retrieveLoop K bs S.length ++
        dest.drop (retrieveLoop K bs S.length).length), sc) := rfl
  rw [hgoal, hw, hdrop, List.append_nil]

/-- C3 witness: K = 4, S the five bytes 1..5, a pool with two stale free blocks; the
allocation succeeds with the chain holding 1,2,3,4 | 5 and retrieval returns S. -/
theorem alloc_retrieve_round_trip_witness :
    blockdata_retrieve 4 [[1, 2, 3, 4], [5, 8, 8, 8]] 5 (some [0, 0, 0, 0, 0]) ⟨0, none⟩
      none = (.buf [1, 2, 3, 4, 5], ⟨0, none⟩) :=
  alloc_retrieve_round_trip 4 (by decide) [1, 2, 3, 4, 5]
    ⟨[[9, 9, 9, 9], [8, 8, 8, 8]], 0, 0, 2, [], [0]⟩
    (by show ∀ b ∈ ([[9, 9, 9, 9], [8, 8, 8, 8]] : List Block), b.length = 4
        decide)
    [[1, 2, 3, 4], [5, 8, 8, 8]] (by decide) [0, 0, 0, 0, 0] (by decide) ⟨0, none⟩ none

/-- C4: expand composition.  If blockdata_alloc of A succeeds (on a pool with
capacity-K free blocks) and blockdata_expand of the resulting chain by ys with the
consistent old length A.length succeeds on any capacity-K pool, then retrieving
A.length + ys.length bytes from the expanded chain yields A ++ ys. -/
theorem expand_composition (K : Nat) (hK : 0 < K) (A ys : List Byte) (p q : Pool)
    (hFp : FreeWF K p) (c1 : List Block)
    (h1 : (blockdata_alloc K (some A) A.length p).1 = some c1)
    (hFq : FreeWF K q) (c2 : List Block)
    (h2 : (blockdata_expand K c1 A.length ys ys.length q).1 = .ok c2)
    (dest : List Byte) (hdest : dest.length = A.length + ys.length) (sc : Scratch)
    (malloc : Option (Nat → Byte)) :
    blockdata_retrieve K c2 (A.length + ys.length) (some dest) sc malloc =
      (.buf (A ++ ys), sc) := by
  obtain ⟨_, hsome⟩ := allocGo_mem_spec hK (A.length + 1) A.length A [] [] p
    (by omega) (le_refl _) hFp (by simp)
  obtain ⟨nb, hc1, hlen1, hK1, hfl1⟩ := hsome c1 h1
  simp only [List.nil_append] at hc1
  subst hc1
  obtain ⟨_, hok⟩ := blockdata_expand_content hK c1 A.length ys q ⟨hlen1, hK1⟩ hFq
  obtain ⟨hWF2, hfl2, _, _⟩ := hok c2 h2
  have hw : retrieveLoop K c2 (A.length + ys.length) = A ++ ys := by
    rw [retrieveLoop_eq_flatten c2 hWF2.2, hfl2, hfl1, List.take_length]
  have hdrop : dest.drop (A.length + ys.length) = [] := by
    rw [← hdest, List.drop_length]
  have hgoal : blockdata_retrieve K c2 (A.length + ys.length) (some dest) sc malloc =
      (.buf (retrieveLoop K c2 (A.length + ys.length) ++
        dest.drop (retrieveLoop K c2 (A.length + ys.length)).length), sc) := rfl
  rw [hgoal, hw]
  rw [show (A ++ ys).length = A.length + ys.length by simp, hdrop, List.append_nil]

/-- C4 witness: the spec scenario with block size 4 — allocate the seven bytes of
"abcdefg" (two blocks), expand by the two bytes of "hi", and retrieve nine bytes
giving "abcdefghi" from the resulting three-block chain. -/
theorem expand_composition_witness :
    blockdata_retrieve 4 [[97, 98, 99, 100], [101, 102, 103, 104], [105, 7, 7, 7]] 9
        (some [0, 0, 0, 0, 0, 0, 0, 0, 0]) ⟨0, none⟩ none =
      (.buf [97, 98, 99, 100, 101, 102, 103, 104, 105], ⟨0, none⟩) ∧
    ([[97, 98, 99, 100], [101, 102, 103, 104], [105, 7, 7, 7]] : List Block).length = 3 :=
  ⟨expand_composition 4 (by decide) [97, 98, 99, 100, 101, 102, 103] [104, 105]
    ⟨[[9, 9, 9, 9], [8, 8, 8, 8]], 0, 0, 2, [], [0]⟩ ⟨[[7, 7, 7, 7]], 2, 2, 3, [], [2, 1, 0]⟩
    (by show ∀ b ∈ ([[9, 9, 9, 9], [8, 8, 8, 8]] : List Block), b.length = 4
        decide)
    [[97, 98, 99, 100], [101, 102, 103, 8]] (by decide)
    (by show ∀ b ∈ ([[7, 7, 7, 7]] : List Block), b.length = 4
        decide)
    [[97, 98, 99, 100], [101, 102, 103, 104], [105, 7, 7, 7]] (by decide)
    [0, 0, 0, 0, 0, 0, 0, 0, 0] (by decide) ⟨0, none⟩ none, by decide⟩

/-- C5: expand failure destroys the whole chain, success mutates in place.  For every
well-formed chain of logical length L on a well-formed pool, blockdata_expand either
succeeds or fails cleanly (never crashes); on failure the entire original chain has
been released back to the pool, so in_use_count drops by the full chain length; on
success the chain only grows, every block before the final one is unchanged, and the
meaningful prefix of the final block (its first L - (k-1)K bytes, i.e. the head
pointer and all previously stored bytes) is unchanged — only the tail portion and
newly appended blocks are written. -/
theorem expand_failure_destroys_success_in_place (K : Nat) (hK : 0 < K) (ch : List Block)
    (L : Nat) (ys : List Byte) (q : Pool) (hWF : ChainWF K ch L) (hPW : PoolWF K q)
    (hle : ch.length ≤ q.blockdata_count) :
    ((∃ ch', (blockdata_expand K ch L ys ys.length q).1 = .ok ch') ∨
      (blockdata_expand K ch L ys ys.length q).1 = .fail) ∧
    ((blockdata_expand K ch L ys ys.length q).1 = .fail →
      (blockdata_expand K ch L ys ys.length q).2.blockdata_count + ch.length =
        q.blockdata_count) ∧
    (∀ ch', (blockdata_expand K ch L ys ys.length q).1 = .ok ch' →
      ch.length ≤ ch'.length ∧
      ch'.take (ch.length - 1) = ch.take (ch.length - 1) ∧
      (ch'[ch.length - 1]?).map (fun b => b.take (L - (ch.length - 1) * K)) =
        (ch[ch.length - 1]?).map (fun b => b.take (L - (ch.length - 1) * K))) := by
  obtain ⟨hPW', hdisj⟩ := blockdata_expand_count hK ch L ys q hWF hPW hle
  obtain ⟨_, hok⟩ := blockdata_expand_content hK ch L ys q hWF hPW.2.2.2
  refine ⟨?_, ?_, ?_⟩
  · rcases hdisj with ⟨hf, _⟩ | ⟨ch', ho, _⟩
    · exact Or.inr hf
    · exact Or.inl ⟨ch', ho⟩
  · intro hf
    rcases hdisj with ⟨_, hc⟩ | ⟨ch', ho, _⟩
    · exact hc
    · rw [ho] at hf
      simp at hf
  · intro ch' h
    obtain ⟨_, _, htk, hlast⟩ := hok ch' h
    rcases hdisj with ⟨hf, _⟩ | ⟨ch'', ho, hlelen, _⟩
    · rw [hf] at h
      simp at h
    · rw [ho] at h
      simp only [ExpandRes.ok.injEq] at h
      subst h
      exact ⟨hlelen, htk, hlast⟩

/-- C5 witness: K = 4, a full one-block chain of length 4, five new bytes, a pool
with an empty free list whose single pending malloc fails: the expansion fails and
in_use_count drops from 1 to 0 (the whole original chain released). -/
theorem expand_failure_destroys_witness :
    ((∃ ch', (blockdata_expand 4 [[1, 2, 3, 4]] 4 [5, 6, 7, 8, 9] 5
        ⟨[], 1, 1, 1, [none], [1, 0]⟩).1 = .ok ch') ∨
      (blockdata_expand 4 [[1, 2, 3, 4]] 4 [5, 6, 7, 8, 9] 5
        ⟨[], 1, 1, 1, [none], [1, 0]⟩).1 = .fail) ∧
    ((blockdata_expand 4 [[1, 2, 3, 4]] 4 [5, 6, 7, 8, 9] 5
        ⟨[], 1, 1, 1, [none], [1, 0]⟩).1 = .fail →
      (blockdata_expand 4 [[1, 2, 3, 4]] 4 [5, 6, 7, 8, 9] 5
        ⟨[], 1, 1, 1, [none], [1, 0]⟩).2.blockdata_count + 1 = 1) ∧
    (∀ ch', (blockdata_expand 4 [[1, 2, 3, 4]] 4 [5, 6, 7, 8, 9] 5
        ⟨[], 1, 1, 1, [none], [1, 0]⟩).1 = .ok ch' →
      1 ≤ ch'.length ∧
      ch'.take 0 = ([[1, 2, 3, 4]] : List Block).take 0 ∧
      (ch'[0]?).map (fun b => b.take 4) =
        (([[1, 2, 3, 4]] : List Block)[0]?).map (fun b => b.take 4)) :=
  expand_failure_destroys_success_in_place 4 (by decide) [[1, 2, 3, 4]] 4 [5, 6, 7, 8, 9]
    ⟨[], 1, 1, 1, [none], [1, 0]⟩
    ⟨by decide, (by decide : ∀ b ∈ ([[1, 2, 3, 4]] : List Block), b.length = 4)⟩
    ⟨by decide, by decide, by decide,
      (by decide : ∀ b ∈ ([] : List Block), b.length = 4)⟩
    (by decide)

/-- C8: accounting invariant.  After any sequence of allocate/expand/free operations
starting from blockdata_init (each operation using the chain's tracked logical
length, per the spec's calling convention), in_use_count equals the total block
count of the live chains, in_use_count is at most total_allocated, and the
high-water mark equals the maximum over the ghost history of every value
blockdata_count has taken. -/
theorem accounting_invariant (K : Nat) (hK : 0 < K) (dnssec : Bool) (cachesize : Nat)
    (mallocs : List (Option (Nat → Nat → Byte))) (ops : List Op) :
    (run K ⟨blockdata_init K dnssec cachesize mallocs, []⟩ ops).pool.blockdata_count =
      sumBlocks (run K ⟨blockdata_init K dnssec cachesize mallocs, []⟩ ops).live ∧
    (run K ⟨blockdata_init K dnssec cachesize mallocs, []⟩ ops).pool.blockdata_count ≤
      (run K ⟨blockdata_init K dnssec cachesize mallocs, []⟩ ops).pool.blockdata_alloced ∧
    (run K ⟨blockdata_init K dnssec cachesize mallocs, []⟩ ops).pool.blockdata_hwm =
      histMax (run K ⟨blockdata_init K dnssec cachesize mallocs, []⟩ ops).pool.hist := by
  have h0 : StInv K ⟨blockdata_init K dnssec cachesize mallocs, []⟩ := by
    refine ⟨blockdata_init_poolWF K dnssec cachesize mallocs, ?_, ?_⟩
    · show (blockdata_init K dnssec cachesize mallocs).blockdata_count = sumBlocks []
      unfold blockdata_init
      split
    
      · rw [add_blocks_count]
        rfl
      · rfl
    · intro cl hcl
      simp at hcl
  obtain ⟨⟨hsum, _, hhwm, _⟩, hcnt, _⟩ := run_preserves hK ops _ h0
  exact ⟨hcnt, by omega, hhwm⟩

/-- C8 witness: a concrete run with K = 4 — init with DNSSEC preallocation of 3
blocks, allocate five bytes, expand the chain by two bytes, allocate an empty blob,
free the first chain. -/
theorem accounting_invariant_witness :
    (run 4 ⟨blockdata_init 4 true 3 [some (fun _ _ => 0)], []⟩
        [.alloc [1, 2, 3, 4, 5], .expand 0 [9, 9], .alloc [], .free 0]).pool.blockdata_count =
      sumBlocks (run 4 ⟨blockdata_init 4 true 3 [some (fun _ _ => 0)], []⟩
        [.alloc [1, 2, 3, 4, 5], .expand 0 [9, 9], .alloc [], .free 0]).live ∧
    (run 4 ⟨blockdata_init 4 true 3 [some (fun _ _ => 0)], []⟩
        [.alloc [1, 2, 3, 4, 5], .expand 0 [9, 9], .alloc [], .free 0]).pool.blockdata_count ≤
      (run 4 ⟨blockdata_init 4 true 3 [some (fun _ _ => 0)], []⟩
        [.alloc [1, 2, 3, 4, 5], .expand 0 [9, 9], .alloc [], .free 0]).pool.blockdata_alloced ∧
    (run 4 ⟨blockdata_init 4 true 3 [some (fun _ _ => 0)], []⟩
        [.alloc [1, 2, 3, 4, 5], .expand 0 [9, 9], .alloc [], .free 0]).pool.blockdata_hwm =
      histMax (run 4 ⟨blockdata_init 4 true 3 [some (fun _ _ => 0)], []⟩
        [.alloc [1, 2, 3, 4, 5], .expand 0 [9, 9], .alloc [], .free 0]).pool.hist :=
  accounting_invariant 4 (by decide) true 3 [some (fun _ _ => 0)]
    [.alloc [1, 2, 3, 4, 5], .expand 0 [9, 9], .alloc [], .free 0]

/-- C9: free reusability.  After blockdata_free of a k-block chain, an immediately
subsequent blockdata_alloc needing ceil(length / K) ≤ k blocks succeeds, is served
entirely from the free list, and consumes no malloc outcome: total_allocated and the
pending malloc list are unchanged by the allocation. -/
theorem free_reusability (K : Nat) (hK : 0 < K) (ch : List Block) (p : Pool)
    (d : List Byte) (hneed : blocksFor K d.length ≤ ch.length) :
    ((blockdata_alloc K (some d) d.length (blockdata_free ch p)).1).isSome = true ∧
    (blockdata_alloc K (some d) d.length (blockdata_free ch p)).2.1.blockdata_alloced =
      (blockdata_free ch p).blockdata_alloced ∧
    (blockdata_alloc K (some d) d.length (blockdata_free ch p)).2.1.mallocs =
      (blockdata_free ch p).mallocs := by
  have hfree : blocksFor K d.length ≤ (blockdata_free ch p).keyblock_free.length := by
    rw [blockdata_free_keyblock_free, List.length_append]
    omega
  exact allocGo_no_malloc hK (d.length + 1) d.length d [] [] (blockdata_free ch p)
    (by omega) hfree

/-- C9 witness: K = 4, free a two-block chain into a pool with an empty free list and
no pending mallocs, then allocate five bytes (two blocks): the allocation succeeds
with total_allocated and the malloc list unchanged. -/
theorem free_reusability_witness :
    ((blockdata_alloc 4 (some [9, 9, 9, 9, 9]) 5
        (blockdata_free [[1, 2, 3, 4], [5, 6, 7, 8]] ⟨[], 2, 2, 2, [], [2, 1, 0]⟩)).1).isSome =
      true ∧
    (blockdata_alloc 4 (some [9, 9, 9, 9, 9]) 5
        (blockdata_free [[1, 2, 3, 4], [5, 6, 7, 8]]
          ⟨[], 2, 2, 2, [], [2, 1, 0]⟩)).2.1.blockdata_alloced =
      (blockdata_free [[1, 2, 3, 4], [5, 6, 7, 8]]
        ⟨[], 2, 2, 2, [], [2, 1, 0]⟩).blockdata_alloced ∧
    (blockdata_alloc 4 (some [9, 9, 9, 9, 9]) 5
        (blockdata_free [[1, 2, 3, 4], [5, 6, 7, 8]]
          ⟨[], 2, 2, 2, [], [2, 1, 0]⟩)).2.1.mallocs =
      (blockdata_free [[1, 2, 3, 4], [5, 6, 7, 8]] ⟨[], 2, 2, 2, [], [2, 1, 0]⟩).mallocs :=
  free_reusability 4 (by decide) [[1, 2, 3, 4], [5, 6, 7, 8]] ⟨[], 2, 2, 2, [], [2, 1, 0]⟩
    [9, 9, 9, 9, 9] (by decide)

/-- C6 counterexample: the claim says the bytes-in-use figure is in_use_count times
the key block length B; with link-field size 8, B = 40 and one block in use,
blockdata_report returns 48 = 1 * sizeof(struct blockdata), not 1 * 40 — the
multiplier includes the link field. -/
theorem report_key_length_counterexample :
    (blockdata_report 8 40 ⟨[], 1, 1, 1, [], [1, 0]⟩).1 ≠
      (⟨[], 1, 1, 1, [], [1, 0]⟩ : Pool).blockdata_count * 40 := by
  decide

/-- C6 amended: blockdata_report mutates no pool state (it is a pure function of the
pool, returning the three counts passed to the logging sink) and the three byte
counts are in_use_count, high_water_mark and total_allocated each multiplied by
sizeof_blockdata = link-field size + K, the size of a whole block record; whenever a
counter is nonzero the reported figure strictly exceeds that counter times the key
block length K alone. -/
theorem report_units (linkSize K : Nat) (p : Pool) (hl : 0 < linkSize) :
    blockdata_report linkSize K p =
      (p.blockdata_count * sizeof_blockdata linkSize K,
       p.blockdata_hwm * sizeof_blockdata linkSize K,
       p.blockdata_alloced * sizeof_blockdata linkSize K) ∧
    (0 < p.blockdata_count →
      p.blockdata_count * K < (blockdata_report linkSize K p).1) := by
  refine ⟨rfl, ?_⟩
  intro h
  show p.blockdata_count * K < p.blockdata_count * sizeof_blockdata linkSize K
  exact mul_lt_mul_of_pos_left (show K < sizeof_blockdata linkSize K by
    unfold sizeof_blockdata
    omega) h

/-- C6 amended witness: link size 8, K = 40, one block in use. -/
theorem report_units_witness :
    blockdata_report 8 40 ⟨[], 1, 1, 1, [], [1, 0]⟩ =
      ((⟨[], 1, 1, 1, [], [1, 0]⟩ : Pool).blockdata_count * sizeof_blockdata 8 40,
       (⟨[], 1, 1, 1, [], [1, 0]⟩ : Pool).blockdata_hwm * sizeof_blockdata 8 40,
       (⟨[], 1, 1, 1, [], [1, 0]⟩ : Pool).blockdata_alloced * sizeof_blockdata 8 40) ∧
    (0 < (⟨[], 1, 1, 1, [], [1, 0]⟩ : Pool).blockdata_count →
      (⟨[], 1, 1, 1, [], [1, 0]⟩ : Pool).blockdata_count * 40 <
        (blockdata_report 8 40 ⟨[], 1, 1, 1, [], [1, 0]⟩).1) :=
  report_units 8 40 ⟨[], 1, 1, 1, [], [1, 0]⟩ (by decide)

/-- C7 (code-bug evidence): buff_len is never assigned after the scratch buffer is
reallocated, so the recorded capacity stays 0 forever and every scratch-path call
with nonzero length reallocates.  A first call with length 1 allocates a one-byte
scratch buffer (the scratch state afterwards still records buff_len = 0); a second
call with the same length 1 attempts a fresh allocation — because 1 > buff_len = 0
still — and returns null when malloc fails, even though the buffer established by
the first call has sufficient capacity.  The claim that a call within the
established capacity reuses the buffer without a new allocation is violated. -/
theorem retrieve_scratch_realloc_bug :
    (blockdata_retrieve 4 [[1, 2, 3, 4]] 1 none ⟨0, none⟩ (some fun _ => 0)).1 =
      .buf [1] ∧
    (blockdata_retrieve 4 [[1, 2, 3, 4]] 1 none ⟨0, none⟩ (some fun _ => 0)).2 =
      ⟨0, some [1]⟩ ∧
    (blockdata_retrieve 4 [[1, 2, 3, 4]] 1 none ⟨0, some [1]⟩ none).1 = .null := by
  refine ⟨rfl, rfl, rfl⟩

/-- C10 counterexample: the claim says a null return happens only when the scratch
buffer needs to grow and that growth fails.  With destination unspecified, length 0
and a fresh scratch state, retrieve returns null although growth was neither needed
nor attempted (a malloc outcome was available and is not consumed; the scratch state
is unchanged): the still-null scratch pointer itself is returned. -/
theorem retrieve_null_without_malloc_failure :
    (blockdata_retrieve 4 [[1, 2, 3, 4]] 0 none ⟨0, none⟩ (some fun _ => 7)).1 = .null ∧
    (blockdata_retrieve 4 [[1, 2, 3, 4]] 0 none ⟨0, none⟩ (some fun _ => 7)).2 =
      ⟨0, none⟩ := by
  refine ⟨rfl, rfl⟩

/-- C10 amended: blockdata_retrieve with a non-null destination never fails — for
every chain (including the empty chain) and every length it returns the destination
buffer, written in place, with the scratch state untouched.  With destination
unspecified and the code-reachable scratch capacity buff_len = 0 (the source never
updates it), a null return happens exactly when either the length is nonzero and
the scratch allocation fails, or the length is zero and the scratch buffer has
never been allocated — in the latter case the null scratch pointer is returned with
no growth attempted. -/
theorem retrieve_null_characterization (K : Nat) (ch : List Block) (len : Nat)
    (sc : Scratch) (malloc : Option (Nat → Byte)) (hbl : sc.buff_len = 0) :
    (∀ d : List Byte, blockdata_retrieve K ch len (some d) sc malloc =
      (.buf (retrieveLoop K ch len ++ d.drop (retrieveLoop K ch len).length), sc)) ∧
    ((blockdata_retrieve K ch len none sc malloc).1 = .null ↔
      (0 < len ∧ malloc = none) ∨ (len = 0 ∧ sc.buff = none)) := by
  constructor
  · intro d
    rfl
  · unfold blockdata_retrieve
    by_cases hlen : sc.buff_len < len
    · rw [if_pos hlen]
      cases malloc with
      | none =>
          simp only []
          constructor
          · intro _
            exact Or.inl ⟨by omega, trivial⟩
          · intro _
            trivial
      | some f =>
          simp only []
          constructor
          · intro h
            exact absurd h (by simp)
          · rintro (⟨_, hmn⟩ | ⟨h0, _⟩)
            · exact absurd hmn (by simp)
            · omega
    · rw [if_neg hlen]
      have hl0 : len = 0 := by omega
      cases hbuff : sc.buff with
      | none =>
          rw [if_neg (by rw [hl0]; simp)]
          simp only []
          constructor
          · intro _
            exact Or.inr ⟨hl0, trivial⟩
          · intro _
            trivial
      | some old =>
          simp only []
          constructor
          · intro h
            exact absurd h (by simp)
          · rintro (⟨h0, _⟩ | ⟨_, hbn⟩)
            · omega
            · exact absurd hbn (by simp)

/-- C10 amended witness: K = 4, a one-block chain.  A call with a caller buffer of
length 2 returns the filled buffer; a call with destination unspecified, length 0
and a fresh scratch state returns null exactly as characterized. -/
theorem retrieve_null_characterization_witness :
    blockdata_retrieve 4 [[1, 2, 3, 4]] 2 (some [0, 0]) ⟨0, none⟩ (some fun _ => 7) =
      (.buf [1, 2], ⟨0, none⟩) ∧
    ((blockdata_retrieve 4 [[1, 2, 3, 4]] 0 none ⟨0, none⟩ (some fun _ => 7)).1 = .null ↔
      (0 < 0 ∧ (some fun _ : Nat => (7 : Byte)) = none) ∨
        (0 = 0 ∧ (⟨0, none⟩ : Scratch).buff = none)) :=
  ⟨(retrieve_null_characterization 4 [[1, 2, 3, 4]] 2 ⟨0, none⟩ (some fun _ => 7) rfl).1
      [0, 0],
    (retrieve_null_characterization 4 [[1, 2, 3, 4]] 0 ⟨0, none⟩ (some fun _ => 7) rfl).2⟩
